import Mathlib

/-!
Shallow embedding of the core of the slpagora wallet (Rust) in Lean 4,
together with theorems settling the frozen claims about its specification.

Bytes are modelled as natural numbers (each intended to be < 256, stated as a
hypothesis where it matters); byte strings are lists of naturals.  Machine
integers are naturals carrying their bit pattern; writers emit explicit
little-endian bytes via division and remainder by powers of two.
-/

namespace Slpagora

/-! ### Serialization primitives (src/serialize.rs) -/

/-- Little-endian bytes of a 16-bit value. -/
def u16le (n : Nat) : List Nat := [n % 256, n / 256 % 256]

/-- Little-endian bytes of a 32-bit value. -/
def u32le (n : Nat) : List Nat :=
  [n % 256, n / 2 ^ 8 % 256, n / 2 ^ 16 % 256, n / 2 ^ 24 % 256]

/-- Little-endian bytes of a 64-bit value. -/
def u64le (n : Nat) : List Nat :=
  [n % 256, n / 2 ^ 8 % 256, n / 2 ^ 16 % 256, n / 2 ^ 24 % 256,
   n / 2 ^ 32 % 256, n / 2 ^ 40 % 256, n / 2 ^ 48 % 256, n / 2 ^ 56 % 256]

/-- `write_var_int` from src/serialize.rs: variable-length integer encoding.
The source matches on ranges `0...0xfc`, `0...0xffff`, `0...0xffffffff`, `_`,
tried in order, which is equivalent to the threshold chain below. -/
def write_var_int (number : Nat) : List Nat :=
  if number ≤ 0xfc then [number % 256]
  else if number ≤ 0xffff then 0xfd :: u16le number
  else if number ≤ 0xffffffff then 0xfe :: u32le number
  else 0xff :: u64le number

/-- `write_var_str` from src/serialize.rs. -/
def write_var_str (string : List Nat) : List Nat :=
  write_var_int string.length ++ string

/-- Read a little-endian u16 from the front of a byte stream. -/
def readU16le : List Nat → Option (Nat × List Nat)
  | a :: b :: r => some (a + 2 ^ 8 * b, r)
  | _ => none

/-- Read a little-endian u32 from the front of a byte stream. -/
def readU32le : List Nat → Option (Nat × List Nat)
  | a :: b :: c :: d :: r => some (a + 2 ^ 8 * b + 2 ^ 16 * c + 2 ^ 24 * d, r)
  | _ => none

/-- Read a little-endian u64 from the front of a byte stream. -/
def readU64le : List Nat → Option (Nat × List Nat)
  | a :: b :: c :: d :: e :: f :: g :: h :: r =>
    some (a + 2 ^ 8 * b + 2 ^ 16 * c + 2 ^ 24 * d + 2 ^ 32 * e + 2 ^ 40 * f +
          2 ^ 48 * g + 2 ^ 56 * h, r)
  | _ => none

/-- `read_var_int` from src/serialize.rs, returning the decoded value and the
remaining bytes of the stream (`none` models an I/O error on a short read). -/
def read_var_int : List Nat → Option (Nat × List Nat)
  | [] => none
  | b :: r =>
    if b ≤ 0xfc then some (b, r)
    else if b = 0xfd then readU16le r
    else if b = 0xfe then readU32le r
    else readU64le r

/-! ### Script model (src/script.rs)

The Rust `OpCodeType` is a C-like enumeration keyed by the standard one-byte
opcode numbers; we represent a variant by its discriminant and keep named
constants for the opcodes the covenant uses.  `isOpCode c` holds exactly when
`c` is a discriminant of the enumeration (`num::FromPrimitive::from_u8`
succeeds): `Op0 = 0x00`, the contiguous block `0x4c ... 0xbb` ending in
`OpCheckDataSigVerify`, `FirstUndefinedOpCode = 0xbc`, and the template
opcodes `0xf0, 0xf7, 0xfa, 0xfb, 0xfd, 0xfe, 0xff`. -/

def OpIf : Nat := 0x63
def OpElse : Nat := 0x67
def OpEndIf : Nat := 0x68
def OpSwap : Nat := 0x7c
def OpCat : Nat := 0x7e
def OpHash256 : Nat := 0xaa
def OpSha256 : Nat := 0xa8
def Op3Dup : Nat := 0x6f
def OpDrop : Nat := 0x75
def OpCheckSigVerify : Nat := 0xad
def OpRot : Nat := 0x7b
def OpCheckDataSig : Nat := 0xba
def OpDup : Nat := 0x76
def OpHash160 : Nat := 0xa9
def OpEqualVerify : Nat := 0x88
def OpCheckSig : Nat := 0xac
def OpReturn : Nat := 0x6a
def OpInvalidOpcode : Nat := 0xff

/-- Whether `c` is a discriminant of the `OpCodeType` enumeration. -/
def isOpCode (c : Nat) : Bool :=
  c == 0x00 || (decide (0x4c ≤ c) && decide (c ≤ 0xbc)) ||
  c == 0xf0 || c == 0xf7 || c == 0xfa || c == 0xfb ||
  c == 0xfd || c == 0xfe || c == 0xff

/-- The two `Op` variants from src/script.rs. -/
inductive Op where
  | Push : List Nat → Op
  | Code : Nat → Op
deriving DecidableEq

/-- `Op::code` from src/script.rs.  (The source calls `unimplemented!()` for a
push longer than `0xffffffff` bytes; that branch is unreachable for every
script considered here and is given the junk value 0.) -/
def Op.code : Op → Nat
  | Op.Push v =>
    if v.length ≤ 0x4b then v.length
    else if v.length ≤ 0xff then 0x4c
    else if v.length ≤ 0xffff then 0x4d
    else if v.length ≤ 0xffffffff then 0x4e
    else 0
  | Op.Code c => c

/-- `Op::write_to_stream` from src/script.rs.  The source first writes
`self.code()`, then for a `Push` matches on the length: a one-byte value in
`[1, 16]` under the minimal-push policy returns early after writing the single
byte `value + 0x50`; otherwise the length prefix (none for `≤ 0x4b`) and the
payload follow. -/
def Op.write_to_stream : Op → Bool → List Nat
  | Op.Push v, is_minimal_push =>
    Op.code (Op.Push v) ::
      (if v.length = 1 ∧ is_minimal_push = true ∧ 0 < v.headD 0 ∧ v.headD 0 ≤ 16 then
        [v.headD 0 + 0x50]
      else
        (if v.length ≤ 0x4b then []
         else if v.length ≤ 0xff then [v.length]
         else if v.length ≤ 0xffff then u16le v.length
         else if v.length ≤ 0xffffffff then u32le v.length
         else []) ++ v)
  | Op.Code c, _ => [c]

/-- `Script` from src/script.rs: the op sequence plus the minimal-push policy. -/
structure Script where
  ops : List Op
  is_minimal_push : Bool
deriving DecidableEq

def Script.empty : Script := ⟨[], true⟩

def Script.new (ops : List Op) : Script := ⟨ops, true⟩

def Script.new_non_minimal_push (ops : List Op) : Script := ⟨ops, false⟩

/-- `Script::to_vec`: serialize every op in order. -/
def Script.to_vec (s : Script) : List Nat :=
  (s.ops.map (fun op => op.write_to_stream s.is_minimal_push)).flatten

/-- Loop body of `Script::from_serialized`.  A byte `≤ 0x4b` takes that many
following bytes as a push; `0x4c` reads a length byte `n` and then takes `n`
bytes starting at the length byte itself (the source slices
`data[idx + 1 .. idx + 1 + n_bytes]` and advances `idx` by `n_bytes + 1`);
any other byte becomes `Code`, falling back to `OpInvalidOpcode` when not in
the enumeration.  (Out-of-range slices panic in Rust; here `take` truncates,
which agrees with the source on every input with enough bytes.) -/
def from_serialized_go : Nat → List Nat → List Op
  | _, [] => []
  | 0, _ :: _ => []
  | fuel + 1, b :: rest =>
    if b ≤ 0x4b then
      Op.Push (rest.take b) :: from_serialized_go fuel (rest.drop b)
    else if b = 0x4c then
      Op.Push (rest.take (rest.headD 0)) ::
        from_serialized_go fuel (rest.drop (rest.headD 0))
    else
      Op.Code (if isOpCode b then b else OpInvalidOpcode) :: from_serialized_go fuel rest

/-- `Script::from_serialized` from src/script.rs.  The fuel `data.length`
bounds the loop structurally and is never exhausted, since every iteration
consumes at least the leading byte. -/
def Script.from_serialized (data : List Nat) : Script :=
  ⟨from_serialized_go data.length data, true⟩

/-! ### Transaction model (src/tx.rs) -/

/-- `TxOutpoint` from src/tx.rs. -/
structure TxOutpoint where
  tx_hash : List Nat
  output_idx : Nat
deriving DecidableEq

/-- `TxOutput` from src/tx.rs. -/
structure TxOutput where
  value : Nat
  script : Script
deriving DecidableEq

/-- `TxOutput::write_to_stream`: value u64 LE, then the var-int length of the
serialized script, then the script bytes. -/
def TxOutput.write_to_stream (o : TxOutput) : List Nat :=
  u64le o.value ++ write_var_int o.script.to_vec.length ++ o.script.to_vec

/-! ### Sighash preimage (src/incomplete_tx.rs) -/

/-- `PreImage` from src/incomplete_tx.rs.  `version` is an `i32` in the source
and is carried here as its 32-bit two's-complement bit pattern. -/
structure PreImage where
  version : Nat
  hash_prevouts : List Nat
  hash_sequence : List Nat
  outpoint : TxOutpoint
  script_code : Script
  value : Nat
  sequence : Nat
  hash_outputs : List Nat
  lock_time : Nat
  sighash_type : Nat
deriving DecidableEq

/-- `PreImageWriteFlags` from src/incomplete_tx.rs. -/
structure PreImageWriteFlags where
  version : Bool
  hash_prevouts : Bool
  hash_sequence : Bool
  outpoint : Bool
  script_code : Bool
  value : Bool
  sequence : Bool
  hash_outputs : Bool
  lock_time : Bool
  sighash_type : Bool
deriving DecidableEq

/-- `PreImage::write_to_stream_flags`: serialize exactly the selected fields,
in field order, with the usual byte formats. -/
def PreImage.write_to_stream_flags (p : PreImage) (flags : PreImageWriteFlags) : List Nat :=
  (if flags.version then u32le p.version else []) ++
  (if flags.hash_prevouts then p.hash_prevouts else []) ++
  (if flags.hash_sequence then p.hash_sequence else []) ++
  (if flags.outpoint then p.outpoint.tx_hash ++ u32le p.outpoint.output_idx else []) ++
  (if flags.script_code then write_var_int p.script_code.to_vec.length ++ p.script_code.to_vec else []) ++
  (if flags.value then u64le p.value else []) ++
  (if flags.sequence then u32le p.sequence else []) ++
  (if flags.hash_outputs then p.hash_outputs else []) ++
  (if flags.lock_time then u32le p.lock_time else []) ++
  (if flags.sighash_type then u32le p.sighash_type else [])

/-- `PreImage::write_to_stream`: all ten flags set. -/
def PreImage.write_to_stream (p : PreImage) : List Nat :=
  p.write_to_stream_flags
    { version := true, hash_prevouts := true, hash_sequence := true,
      outpoint := true, script_code := true, value := true, sequence := true,
      hash_outputs := true, lock_time := true, sighash_type := true }

/-! ### Output descriptors and the transaction builder

The `Output` trait supplies `value()`, `script()` and `script_code()` (plus
`sig_script`, which the concrete descriptor types implement individually); a
boxed trait object is modelled by the record of those three pure methods. -/

/-- A trait object implementing `Output`, seen through its pure methods. -/
structure OutputIface where
  value : Nat
  script : Script
  script_code : Script

/-- `Utxo` from src/incomplete_tx.rs; the secret key is opaque byte data and
is not consumed by `pre_images`. -/
structure Utxo where
  outpoint : TxOutpoint
  output : OutputIface
  sequence : Nat
  key : List Nat

/-- `IncompleteTx` from src/incomplete_tx.rs. -/
structure IncompleteTx where
  version : Nat
  inputs : List Utxo
  outputs : List TxOutput
  lock_time : Nat

/-- Double SHA-256, parametrized by the external `sha2` crate's compression
function: `double_sha256(x) = sha256(sha256(x))` (src/hash.rs). -/
def double_sha256 (sha256 : List Nat → List Nat) (data : List Nat) : List Nat :=
  sha256 (sha256 data)

/-- `IncompleteTx::pre_images` from src/incomplete_tx.rs, parametrized by the
SHA-256 compression function.  It hashes the concatenated outpoints, the
concatenated sequence numbers and the concatenated serialized outputs, and
emits one `PreImage` per input, in input order, all sharing those hashes. -/
def pre_images (sha256 : List Nat → List Nat) (tx : IncompleteTx)
    (sighash_type : Nat) : List PreImage :=
  let hash_prevouts := double_sha256 sha256
    ((tx.inputs.map (fun input =>
      input.outpoint.tx_hash ++ u32le input.outpoint.output_idx)).flatten)
  let hash_sequence := double_sha256 sha256
    ((tx.inputs.map (fun input => u32le input.sequence)).flatten)
  let hash_outputs := double_sha256 sha256
    ((tx.outputs.map TxOutput.write_to_stream).flatten)
  tx.inputs.map (fun input =>
    { version := tx.version
      hash_prevouts := hash_prevouts
      hash_sequence := hash_sequence
      outpoint := input.outpoint
      script_code := input.output.script_code
      value := input.output.value
      sequence := input.sequence
      hash_outputs := hash_outputs
      lock_time := tx.lock_time
      sighash_type := sighash_type })

/-! ### Address codec (src/address.rs) -/

/-- `CHARSET`: the bytes of `"qpzry9x8gf2tvdw0s3jn54khce6mua7l"`. -/
def CHARSET : List Nat :=
  [113, 112, 122, 114, 121, 57, 120, 56, 103, 102, 50, 116, 118, 100, 119, 48,
   115, 51, 106, 110, 53, 52, 107, 104, 99, 101, 54, 109, 117, 97, 55, 108]

/-- `DEFAULT_PREFIX`: the bytes of `"bitcoincash"`. -/
def DEFAULT_PREFIX : List Nat := [98, 105, 116, 99, 111, 105, 110, 99, 97, 115, 104]

/-- `AddressError` from src/address.rs. -/
inductive AddressError where
  | InvalidChecksum : AddressError
  | InvalidBase32Letter : Nat → Nat → AddressError
  | InvalidAddressType : Nat → AddressError
deriving DecidableEq

/-- `AddressType` from src/address.rs. -/
inductive AddressType where
  | P2PKH : AddressType
  | P2SH : AddressType
deriving DecidableEq

/-- The enum discriminants: `P2PKH = 0`, `P2SH = 8`. -/
def AddressType.toNat : AddressType → Nat
  | AddressType.P2PKH => 0
  | AddressType.P2SH => 8

/-- The inner `while bits >= to_bits` loop of `convert_bits`: emit `to_bits`-bit
groups from the top of the pending bits.  Returns the emitted groups and the
number of pending bits left (`bits % to_bits` when `0 < to_bits`). -/
def emit_groups_go (to_bits acc : Nat) : Nat → Nat → List Nat × Nat
  | 0, bits => ([], bits)
  | fuel + 1, bits =>
    if 0 < to_bits ∧ to_bits ≤ bits then
      let r := emit_groups_go to_bits acc fuel (bits - to_bits)
      (((acc >>> (bits - to_bits)) &&& (2 ^ to_bits - 1)) :: r.1, r.2)
    else ([], bits)

/-- See `emit_groups_go`; the fuel `bits` bounds the loop structurally and is
never exhausted, since every iteration removes `to_bits ≥ 1` pending bits. -/
def emit_groups (to_bits acc bits : Nat) : List Nat × Nat :=
  emit_groups_go to_bits acc bits bits

/-- The `for value in data` loop of `convert_bits`: threads the accumulator and
pending-bit count, failing when a value does not fit in `from_bits` bits.
Returns the emitted groups together with the final accumulator and bit count. -/
def convert_bits_loop (from_bits to_bits : Nat) :
    List Nat → Nat → Nat → Option (List Nat × Nat × Nat)
  | [], acc, bits => some ([], acc, bits)
  | value :: rest, acc, bits =>
    if value >>> from_bits ≠ 0 then none
    else
      let acc' := ((acc <<< from_bits) ||| value) &&& (2 ^ (from_bits + to_bits - 1) - 1)
      let e := emit_groups to_bits acc' (bits + from_bits)
      (convert_bits_loop from_bits to_bits rest acc' e.2).map
        (fun r => (e.1 ++ r.1, r.2.1, r.2.2))

/-- `convert_bits` from src/address.rs: regroup a stream of `from_bits`-bit
values into `to_bits`-bit values, padding the trailing group with zero bits
when `pad` is set, and failing on non-zero trailing bits otherwise. -/
def convert_bits (data : List Nat) (from_bits to_bits : Nat) (pad : Bool) :
    Option (List Nat) :=
  match convert_bits_loop from_bits to_bits data 0 0 with
  | none => none
  | some (ret, acc, bits) =>
    if pad then
      if bits ≠ 0 then some (ret ++ [(acc <<< (to_bits - bits)) &&& (2 ^ to_bits - 1)])
      else some ret
    else if from_bits ≤ bits ∨ (acc <<< (to_bits - bits)) &&& (2 ^ to_bits - 1) ≠ 0 then none
    else some ret

/-- One iteration of the `poly_mod` loop from src/address.rs.  `c0` is the
`(c >> 35) as u8` cast; each generator is XORed in when the corresponding bit
of `c0` is set. -/
def poly_mod_step (c value : Nat) : Nat :=
  let c0 := (c >>> 35) % 256
  let c1 := ((c &&& 0x07ffffffff) <<< 5) ^^^ value
  let c2 := if c0 &&& 0x01 ≠ 0 then c1 ^^^ 0x98f2bc8e61 else c1
  let c3 := if c0 &&& 0x02 ≠ 0 then c2 ^^^ 0x79b76d99e2 else c2
  let c4 := if c0 &&& 0x04 ≠ 0 then c3 ^^^ 0xf33e5fb3c4 else c3
  let c5 := if c0 &&& 0x08 ≠ 0 then c4 ^^^ 0xae2eabe2a8 else c4
  if c0 &&& 0x10 ≠ 0 then c5 ^^^ 0x1e4f43e470 else c5

/-- `poly_mod` from src/address.rs: fold the step over the values starting
from 1, then XOR the result with 1. -/
def poly_mod (values : List Nat) : Nat :=
  (values.foldl poly_mod_step 1) ^^^ 1

/-- `calculate_checksum` from src/address.rs: `poly_mod` over the low 5 bits of
each prefix byte, a zero separator, the payload and eight zero sentinels; the
result's 5-bit groups, most significant first. -/
def calculate_checksum (pfx payload : List Nat) : List Nat :=
  let poly := poly_mod ((pfx.map (fun x => x &&& 0x1f)) ++ [0] ++ payload ++
    List.replicate 8 0)
  (List.range 8).map (fun i => (poly >>> (5 * (7 - i))) &&& 0x1f)

/-- `verify_checksum` from src/address.rs. -/
def verify_checksum (pfx payload : List Nat) : Bool :=
  poly_mod ((pfx.map (fun x => x &&& 0x1f)) ++ [0] ++ payload) == 0

/-- `b32_encode` from src/address.rs (`CHARSET[x]` panics for `x ≥ 32`; the
default 0 is unreachable for the 5-bit groups produced here). -/
def b32_encode (data : List Nat) : List Nat :=
  data.map (fun x => CHARSET.getD x 0)

/-- `Iterator::position` / `str::find` on a byte list: index of the first
element equal to `x`. -/
def position (x : Nat) : List Nat → Option Nat
  | [] => none
  | c :: r => if c = x then some 0 else (position x r).map (fun i => i + 1)

/-- Loop of `b32_decode`: first invalid character wins, carrying its index. -/
def b32_decode_go : Nat → List Nat → Except AddressError (List Nat)
  | _, [] => Except.ok []
  | i, c :: r =>
    match position c CHARSET with
    | none => Except.error (AddressError.InvalidBase32Letter i c)
    | some x => (b32_decode_go (i + 1) r).map (fun l => x :: l)

/-- `b32_decode` from src/address.rs. -/
def b32_decode (s : List Nat) : Except AddressError (List Nat) :=
  b32_decode_go 0 s

/-- `to_cash_addr` from src/address.rs.  (`convert_bits(..., 8, 5, true)` is
unwrapped in the source; with `pad` set it only fails when a data value
exceeds a byte, so the `getD` default is unreachable for byte inputs.) -/
def to_cash_addr (pfx : List Nat) (addr_type : AddressType)
    (addr_bytes : List Nat) : List Nat :=
  let payload := (convert_bits (addr_type.toNat :: addr_bytes) 8 5 true).getD []
  let checksum := calculate_checksum pfx payload
  pfx ++ [58] ++ b32_encode (payload ++ checksum)

/-- `u8::to_ascii_lowercase`. -/
def to_ascii_lowercase (b : Nat) : Nat :=
  if 65 ≤ b ∧ b ≤ 90 then b + 32 else b

/-- The prefix/payload split of `from_cash_addr`: `find(":")` then
`split_at(pos + 1)` with the colon stripped off the prefix.  When no colon is
present the source evaluates `(&addr_string[..], DEFAULT_PREFIX)`: the whole
input becomes the prefix and the literal default prefix string the payload. -/
def split_addr (addr_string : List Nat) : List Nat × List Nat :=
  match position 58 addr_string with
  | some pos => (addr_string.take pos, addr_string.drop (pos + 1))
  | none => (addr_string, DEFAULT_PREFIX)

/-- Outcome of `from_cash_addr`: a value, an `AddressError`, or a panic. -/
inductive FromCashAddrResult where
  | ok : List Nat → AddressType → List Nat → FromCashAddrResult
  | err : AddressError → FromCashAddrResult
  | panic : FromCashAddrResult
deriving DecidableEq

/-- `from_cash_addr` from src/address.rs.  After the checksum test the source
unwraps `convert_bits(decoded, 5, 8, true)` (a `None` would panic) and runs
`addr.copy_from_slice(&converted[1 .. converted.len() - 6])`, which panics —
by index underflow, slice out of range, or length mismatch against the 20-byte
destination — unless `converted` has exactly `1 + 20 + 6 = 27` bytes. -/
def from_cash_addr (addr_string : List Nat) : FromCashAddrResult :=
  let lowered := addr_string.map to_ascii_lowercase
  let pr := split_addr lowered
  match b32_decode pr.2 with
  | Except.error e => FromCashAddrResult.err e
  | Except.ok decoded =>
    if verify_checksum pr.1 decoded = false then
      FromCashAddrResult.err AddressError.InvalidChecksum
    else
      match convert_bits decoded 5 8 true with
      | none => FromCashAddrResult.panic
      | some converted =>
        if converted.length = 27 then
          match converted.headD 0 with
          | 0 => FromCashAddrResult.ok ((converted.drop 1).take 20) AddressType.P2PKH pr.1
          | 8 => FromCashAddrResult.ok ((converted.drop 1).take 20) AddressType.P2SH pr.1
          | x => FromCashAddrResult.err (AddressError.InvalidAddressType x)
        else FromCashAddrResult.panic

/-! ### Output descriptors (src/outputs.rs) -/

/-- `Address` from src/address.rs, restricted to the fields the output
descriptors read (the cached `cash_addr` string is not consulted by them). -/
structure Address where
  addr_type : AddressType
  bytes : List Nat
  pfx : List Nat

/-- `EnforceOutputsOutput` from src/outputs.rs.  The boxed enforced outputs
are carried as `OutputIface` records. -/
structure EnforceOutputsOutput where
  value : Nat
  cancel_address : Address
  enforced_outputs : List OutputIface
  is_cancel : Option Bool

/-- `EnforceOutputsOutput::script`: the covenant locking script.
`outputs_pre` serializes `TxOutput::new(output.value(), output.script())` for
each enforced output, in order. -/
def EnforceOutputsOutput.script (o : EnforceOutputsOutput) : Script :=
  let outputs_pre := (o.enforced_outputs.map (fun output =>
    TxOutput.write_to_stream ⟨output.value, output.script⟩)).flatten
  Script.new [
    Op.Code OpIf,
    Op.Push outputs_pre, Op.Code OpSwap, Op.Code OpCat, Op.Code OpHash256,
    Op.Code OpCat, Op.Code OpSwap, Op.Code OpCat, Op.Code OpSha256,
    Op.Code Op3Dup, Op.Code OpDrop, Op.Push [0x41], Op.Code OpCat,
    Op.Code OpSwap, Op.Code OpCheckSigVerify, Op.Code OpRot,
    Op.Code OpCheckDataSig,
    Op.Code OpElse,
    Op.Code OpDup, Op.Code OpHash160, Op.Push o.cancel_address.bytes,
    Op.Code OpEqualVerify, Op.Code OpCheckSig,
    Op.Code OpEndIf]

/-- `EnforceOutputsOutput::sig_script`.  `pub_key` carries the bytes of
`pub_key.serialize()`.  `none` models the three panics: `is_cancel` unset
(`expect`), `serialized_sig.remove(len - 1)` on an empty vector, and the
slice `outputs[self.enforced_outputs.len()..]` when `outputs` is shorter
than the enforced list. -/
def EnforceOutputsOutput.sig_script (o : EnforceOutputsOutput)
    (serialized_sig pub_key : List Nat) (pre_image : PreImage)
    (outputs : List TxOutput) : Option Script :=
  match o.is_cancel with
  | none => none
  | some true =>
    some (Script.new [Op.Push serialized_sig, Op.Push pub_key, Op.Push [0x00]])
  | some false =>
    if serialized_sig.length = 0 then none
    else if outputs.length < o.enforced_outputs.length then none
    else
      let sig := serialized_sig.dropLast
      let pre_image_begin := pre_image.write_to_stream_flags
        { version := true, hash_prevouts := true, hash_sequence := true,
          outpoint := true, script_code := true, value := true, sequence := true,
          hash_outputs := false, lock_time := false, sighash_type := false }
      let pre_image_end := pre_image.write_to_stream_flags
        { version := false, hash_prevouts := false, hash_sequence := false,
          outpoint := false, script_code := false, value := false,
          sequence := false, hash_outputs := false, lock_time := true,
          sighash_type := true }
      let outputs_end := ((outputs.drop o.enforced_outputs.length).map
        TxOutput.write_to_stream).flatten
      some (Script.new [Op.Push pub_key, Op.Push sig, Op.Push pre_image_end,
        Op.Push pre_image_begin, Op.Push outputs_end, Op.Push [0x01]])

/-! ## Digit arithmetic, for the codec proofs -/

/-- Value of a big-endian list of `b`-bit digits. -/
def digitsVal (b : Nat) : List Nat → Nat
  | [] => 0
  | d :: ds => d * 2 ^ (b * ds.length) + digitsVal b ds

/-- The `L` big-endian `b`-bit digits of `x` (bits of `x` above `b * L` are
ignored). -/
def digitsBE (b L x : Nat) : List Nat :=
  (List.range L).map (fun i => x / 2 ^ (b * (L - 1 - i)) % 2 ^ b)

theorem digitsBE_length (b L x : Nat) : (digitsBE b L x).length = L := by
  simp [digitsBE]

theorem digitsBE_zero (b x : Nat) : digitsBE b 0 x = [] := by
  simp [digitsBE]

theorem digitsBE_succ (b L x : Nat) :
    digitsBE b (L + 1) x = (x / 2 ^ (b * L) % 2 ^ b) :: digitsBE b L x := by
  simp only [digitsBE, List.range_succ_eq_map, List.map_cons, List.map_map]
  have h0 : L + 1 - 1 - 0 = L := by omega
  rw [h0]
  congr 1
  apply List.map_congr_left
  intro i _
  have h : L - (i + 1) = L - 1 - i := by omega
  simp [Function.comp_def, Nat.succ_eq_add_one, h]

theorem digitsBE_lt (b L x : Nat) : ∀ d ∈ digitsBE b L x, d < 2 ^ b := by
  intro d hd
  simp only [digitsBE, List.mem_map] at hd
  obtain ⟨i, _, rfl⟩ := hd
  exact Nat.mod_lt _ (Nat.pos_pow_of_pos _ (by omega))

theorem digitsVal_lt (b : Nat) :
    ∀ ds : List Nat, (∀ d ∈ ds, d < 2 ^ b) →
      digitsVal b ds < 2 ^ (b * ds.length)
  | [], _ => by simp [digitsVal]
  | d :: ds, h => by
    have hd : d < 2 ^ b := h d (by simp)
    have ht : digitsVal b ds < 2 ^ (b * ds.length) :=
      digitsVal_lt b ds (fun e he => h e (by simp [he]))
    have : b * (d :: ds).length = b * ds.length + b := by
      simp [List.length_cons]; ring
    rw [digitsVal, this, Nat.pow_add]
    calc d * 2 ^ (b * ds.length) + digitsVal b ds
        < d * 2 ^ (b * ds.length) + 2 ^ (b * ds.length) := by omega
      _ = (d + 1) * 2 ^ (b * ds.length) := by ring
      _ ≤ 2 ^ b * 2 ^ (b * ds.length) := by
          exact Nat.mul_le_mul_right _ (by omega)
      _ = 2 ^ (b * ds.length) * 2 ^ b := by ring

theorem digitsVal_digitsBE (b : Nat) :
    ∀ L x, digitsVal b (digitsBE b L x) = x % 2 ^ (b * L)
  | 0, x => by simp [digitsBE_zero, digitsVal, Nat.mod_one]
  | L + 1, x => by
    rw [digitsBE_succ, digitsVal, digitsBE_length, digitsVal_digitsBE b L x]
    have h1 : b * (L + 1) = b * L + b := by ring
    rw [h1, Nat.pow_add, Nat.mod_mul]
    ring

theorem digitsBE_mod (b L x : Nat) :
    digitsBE b L (x % 2 ^ (b * L)) = digitsBE b L x := by
  apply List.map_congr_left
  intro i hi
  simp only [List.mem_range] at hi
  set e := b * (L - 1 - i) with he
  have hle : e + b ≤ b * L := by
    have : L - 1 - i + 1 ≤ L := by omega
    calc e + b = b * (L - 1 - i + 1) := by rw [he]; ring
      _ ≤ b * L := Nat.mul_le_mul_left b this
  have h2 : 2 ^ (b * L) = 2 ^ e * 2 ^ (b * L - e) := by
    rw [← Nat.pow_add]; congr 1; omega
  rw [h2, Nat.mod_mul_right_div_self]
  exact Nat.mod_mod_of_dvd _ (Nat.pow_dvd_pow 2 (by omega))

theorem digitsBE_digitsVal (b : Nat) :
    ∀ ds : List Nat, (∀ d ∈ ds, d < 2 ^ b) →
      digitsBE b ds.length (digitsVal b ds) = ds
  | [], _ => by simp [digitsBE_zero]
  | d :: ds, h => by
    have hd : d < 2 ^ b := h d (by simp)
    have hv : digitsVal b ds < 2 ^ (b * ds.length) :=
      digitsVal_lt b ds (fun e he => h e (by simp [he]))
    rw [List.length_cons, digitsBE_succ, digitsVal]
    congr 1
    · rw [Nat.add_comm, Nat.add_mul_div_right _ _ (Nat.pos_pow_of_pos _ (by omega)),
        Nat.div_eq_of_lt hv]
      simp [Nat.mod_eq_of_lt hd]
    · rw [← digitsBE_mod, Nat.add_comm, Nat.add_mul_mod_self_right,
        Nat.mod_eq_of_lt hv]
      exact digitsBE_digitsVal b ds (fun e he => h e (by simp [he]))

theorem digitsVal_append (b : Nat) (ds es : List Nat) :
    digitsVal b (ds ++ es) =
      digitsVal b ds * 2 ^ (b * es.length) + digitsVal b es := by
  induction ds with
  | nil => simp [digitsVal]
  | cons d ds ih =>
    simp only [List.cons_append, digitsVal, ih, List.length_append,
      List.append_eq]
    have : b * (ds.length + es.length) = b * ds.length + b * es.length := by ring
    rw [this, Nat.pow_add]
    ring

theorem digitsBE_append (b L1 L2 x y : Nat) (hx : x < 2 ^ (b * L1))
    (hy : y < 2 ^ (b * L2)) :
    digitsBE b (L1 + L2) (x * 2 ^ (b * L2) + y) =
      digitsBE b L1 x ++ digitsBE b L2 y := by
  have hlen : (digitsBE b L1 x ++ digitsBE b L2 y).length = L1 + L2 := by
    simp [digitsBE_length]
  have hmem : ∀ d ∈ digitsBE b L1 x ++ digitsBE b L2 y, d < 2 ^ b := by
    intro d hd
    rcases List.mem_append.mp hd with h | h
    · exact digitsBE_lt b L1 x d h
    · exact digitsBE_lt b L2 y d h
  have := digitsBE_digitsVal b (digitsBE b L1 x ++ digitsBE b L2 y) hmem
  rw [hlen, digitsVal_append, digitsBE_length, digitsVal_digitsBE,
    digitsVal_digitsBE, Nat.mod_eq_of_lt hx, Nat.mod_eq_of_lt hy] at this
  exact this

/-! ## Characterization of `convert_bits` -/

theorem emit_groups_go_spec (tb acc : Nat) (htb : 0 < tb) :
    ∀ fuel bits, bits ≤ fuel →
      emit_groups_go tb acc fuel bits =
        (digitsBE tb (bits / tb) (acc % 2 ^ bits / 2 ^ (bits % tb)), bits % tb)
  | 0, bits, hb => by
    have : bits = 0 := by omega
    subst this
    simp [emit_groups_go, digitsBE_zero, Nat.zero_div, Nat.zero_mod]
  | fuel + 1, bits, hb => by
    rw [emit_groups_go]
    by_cases hc : tb ≤ bits
    · rw [if_pos ⟨htb, hc⟩]
      have hrec := emit_groups_go_spec tb acc htb fuel (bits - tb) (by omega)
      simp only [hrec]
      have hmod : (bits - tb) % tb = bits % tb := (Nat.mod_eq_sub_mod hc).symm
      have hdiv : bits / tb = (bits - tb) / tb + 1 := Nat.div_eq_sub_div htb hc
      have hsK : bits % tb + tb * ((bits - tb) / tb) = bits - tb := by
        have h1 := Nat.mod_add_div (bits - tb) tb
        omega
      have hpow : (2 : Nat) ^ bits = 2 ^ (bits - tb) * 2 ^ tb := by
        rw [← Nat.pow_add]
        congr 1
        omega
      -- the digit extracted by this iteration
      have hdigit : (acc >>> (bits - tb)) &&& (2 ^ tb - 1) =
          acc % 2 ^ bits / 2 ^ (bits - tb) := by
        rw [Nat.shiftRight_eq_div_pow, Nat.and_pow_two_sub_one_eq_mod, hpow,
          Nat.mod_mul_right_div_self]
      have hXdiv : acc % 2 ^ bits / 2 ^ (bits % tb) / 2 ^ (tb * ((bits - tb) / tb)) =
          acc % 2 ^ bits / 2 ^ (bits - tb) := by
        rw [Nat.div_div_eq_div_mul, ← Nat.pow_add, hsK]
      have hXlt : acc % 2 ^ bits / 2 ^ (bits - tb) < 2 ^ tb := by
        apply Nat.div_lt_of_lt_mul
        calc acc % 2 ^ bits < 2 ^ bits := Nat.mod_lt _ (Nat.pos_pow_of_pos _ (by omega))
          _ = 2 ^ (bits - tb) * 2 ^ tb := hpow
      -- the tail digits agree after truncation
      have htail : digitsBE tb ((bits - tb) / tb)
            (acc % 2 ^ (bits - tb) / 2 ^ (bits % tb)) =
          digitsBE tb ((bits - tb) / tb) (acc % 2 ^ bits / 2 ^ (bits % tb)) := by
        rw [← digitsBE_mod tb ((bits - tb) / tb) (acc % 2 ^ bits / 2 ^ (bits % tb))]
        congr 1
        have h1 : acc % 2 ^ bits / 2 ^ (bits % tb) % 2 ^ (tb * ((bits - tb) / tb)) =
            acc % 2 ^ bits % 2 ^ (bits % tb + tb * ((bits - tb) / tb)) / 2 ^ (bits % tb) := by
          rw [Nat.pow_add, Nat.mod_mul_right_div_self]
        rw [h1, hsK]
        have h2 : acc % 2 ^ bits % 2 ^ (bits - tb) = acc % 2 ^ (bits - tb) :=
          Nat.mod_mod_of_dvd _ (Nat.pow_dvd_pow 2 (by omega))
        rw [h2]
      rw [hmod, hdiv, digitsBE_succ, hXdiv, Nat.mod_eq_of_lt hXlt, hdigit, htail]
    · rw [if_neg (by omega)]
      have h1 : bits / tb = 0 := Nat.div_eq_of_lt (by omega)
      have h2 : bits % tb = bits := Nat.mod_eq_of_lt (by omega)
      simp [h1, h2, digitsBE_zero]

theorem emit_groups_spec (tb acc bits : Nat) (htb : 0 < tb) :
    emit_groups tb acc bits =
      (digitsBE tb (bits / tb) (acc % 2 ^ bits / 2 ^ (bits % tb)), bits % tb) :=
  emit_groups_go_spec tb acc htb bits bits le_rfl

/-- `(a <<< k) ||| v = a * 2 ^ k + v` when `v < 2 ^ k` (disjoint bits). -/
theorem shiftLeft_or_eq_add (a v k : Nat) (hv : v < 2 ^ k) :
    (a <<< k) ||| v = a * 2 ^ k + v := by
  apply Nat.eq_of_testBit_eq
  intro j
  rw [Nat.testBit_or, Nat.testBit_shiftLeft,
    show a * 2 ^ k + v = 2 ^ k * a + v by ring,
    Nat.testBit_mul_pow_two_add a hv j]
  by_cases h : j < k
  · simp [h, Nat.not_le_of_lt h]
  · have hge : j ≥ k := by omega
    have : v < 2 ^ j := lt_of_lt_of_le hv (Nat.pow_le_pow_right (by omega) hge)
    simp [h, hge, Nat.testBit_lt_two_pow this]

theorem convert_bits_loop_spec (fb tb : Nat) (htb : 0 < tb) :
    ∀ (data : List Nat) (acc bits : Nat), (∀ v ∈ data, v < 2 ^ fb) →
      bits < tb →
      ∃ acc2,
        convert_bits_loop fb tb data acc bits =
          some (digitsBE tb ((bits + data.length * fb) / tb)
                  ((acc % 2 ^ bits * 2 ^ (data.length * fb) + digitsVal fb data) /
                    2 ^ ((bits + data.length * fb) % tb)),
                acc2, (bits + data.length * fb) % tb) ∧
        acc2 % 2 ^ ((bits + data.length * fb) % tb) =
          (acc % 2 ^ bits * 2 ^ (data.length * fb) + digitsVal fb data) %
            2 ^ ((bits + data.length * fb) % tb)
  | [], acc, bits, _, hbits => by
    have h1 : bits / tb = 0 := Nat.div_eq_of_lt hbits
    have h2 : bits % tb = bits := Nat.mod_eq_of_lt hbits
    refine ⟨acc, ?_, ?_⟩
    · rw [convert_bits_loop]
      simp [digitsVal, h1, h2, digitsBE_zero]
    · simp only [List.length_nil, Nat.zero_mul, Nat.add_zero, h2, digitsVal,
        Nat.pow_zero, Nat.mul_one]
      exact (Nat.mod_mod_of_dvd _ dvd_rfl).symm
  | v :: rest, acc, bits, hd, hbits => by
    have hv : v < 2 ^ fb := hd v (by simp)
    have hguard : v >>> fb = 0 := by
      rw [Nat.shiftRight_eq_div_pow]; exact Nat.div_eq_of_lt hv
    have hrest : ∀ w ∈ rest, w < 2 ^ fb := fun w hw => hd w (by simp [hw])
    -- the new accumulator and its pending value
    set P : Nat := acc % 2 ^ bits * 2 ^ fb + v with hP
    have hPlt : P < 2 ^ (bits + fb) := by
      rw [Nat.pow_add]
      have h1 : acc % 2 ^ bits < 2 ^ bits :=
        Nat.mod_lt _ (Nat.pos_pow_of_pos _ (by omega))
      calc P ≤ (2 ^ bits - 1) * 2 ^ fb + v := by
            apply Nat.add_le_add_right
            exact Nat.mul_le_mul_right _ (by omega)
        _ < 2 ^ bits * 2 ^ fb := by
            have h2 : (2 : Nat) ^ fb > 0 := Nat.pos_pow_of_pos _ (by omega)
            have h3 : (2 : Nat) ^ bits > 0 := Nat.pos_pow_of_pos _ (by omega)
            calc (2 ^ bits - 1) * 2 ^ fb + v < (2 ^ bits - 1) * 2 ^ fb + 2 ^ fb := by omega
              _ = (2 ^ bits - 1 + 1) * 2 ^ fb := by ring
              _ = 2 ^ bits * 2 ^ fb := by congr 1; omega
    set acc1 : Nat := ((acc <<< fb) ||| v) &&& (2 ^ (fb + tb - 1) - 1) with hacc1
    have hacc1P : acc1 % 2 ^ (bits + fb) = P := by
      rw [hacc1, shiftLeft_or_eq_add acc v fb hv,
        Nat.and_pow_two_sub_one_eq_mod]
      have hle : bits + fb ≤ fb + tb - 1 := by omega
      rw [Nat.mod_mod_of_dvd _ (Nat.pow_dvd_pow 2 hle)]
      have hsplit : acc * 2 ^ fb + v = P + acc / 2 ^ bits * 2 ^ (bits + fb) := by
        rw [hP, Nat.pow_add]
        have := Nat.mod_add_div acc (2 ^ bits)
        calc acc * 2 ^ fb + v
            = (acc % 2 ^ bits + 2 ^ bits * (acc / 2 ^ bits)) * 2 ^ fb + v := by
              rw [this]
          _ = acc % 2 ^ bits * 2 ^ fb + v + acc / 2 ^ bits * (2 ^ bits * 2 ^ fb) := by
              ring
      rw [hsplit, Nat.add_mul_mod_self_right, Nat.mod_eq_of_lt hPlt]
    have hbits1lt : (bits + fb) % tb < tb := Nat.mod_lt _ htb
    have hemit := emit_groups_spec tb acc1 (bits + fb) htb
    obtain ⟨acc2, hloop, hacc2⟩ :=
      convert_bits_loop_spec fb tb htb rest acc1 ((bits + fb) % tb) hrest hbits1lt
    -- abbreviations for this step
    set rl := rest.length with hrl
    set bits1 := (bits + fb) % tb with hbits1
    set K0 := (bits + fb) / tb with hK0
    set K1 := (bits1 + rl * fb) / tb with hK1
    set b2 := (bits1 + rl * fb) % tb with hb2
    set S1 := acc1 % 2 ^ bits1 * 2 ^ (rl * fb) + digitsVal fb rest with hS1
    set X := P / 2 ^ bits1 with hX
    -- the pending value after this step, relative to P
    have hacc1bits1 : acc1 % 2 ^ bits1 = P % 2 ^ bits1 := by
      rw [← hacc1P, Nat.mod_mod_of_dvd _ (Nat.pow_dvd_pow 2 (Nat.mod_le _ _))]
    have hKb : bits + fb = tb * K0 + bits1 := by
      have h := Nat.mod_add_div (bits + fb) tb
      rw [← hK0, ← hbits1] at h
      omega
    have hKb1 : bits1 + rl * fb = tb * K1 + b2 := by
      have h := Nat.mod_add_div (bits1 + rl * fb) tb
      rw [← hK1, ← hb2] at h
      omega
    -- totals
    have hbtot : (bits + (v :: rest).length * fb) % tb = b2 := by
      rw [List.length_cons, ← hrl, hb2, hbits1]
      rw [Nat.mod_add_mod]
      congr 1
      ring
    have hb2lt : b2 < tb := by
      rw [hb2]; exact Nat.mod_lt _ htb
    have hKtot : (bits + (v :: rest).length * fb) / tb = K0 + K1 := by
      have htot : bits + (v :: rest).length * fb = tb * (K0 + K1) + b2 := by
        rw [List.length_cons, ← hrl]
        have e1 : (rl + 1) * fb = rl * fb + fb := by ring
        have e2 : tb * (K0 + K1) = tb * K0 + tb * K1 := by ring
        rw [e1, e2]
        omega
      rw [htot, Nat.mul_add_div htb, Nat.div_eq_of_lt hb2lt, Nat.add_zero]
    -- the total stream value, relative to P and S1
    have hStot : acc % 2 ^ bits * 2 ^ ((v :: rest).length * fb) +
        digitsVal fb (v :: rest) = X * 2 ^ (tb * K1) * 2 ^ b2 + S1 := by
      have e1 : acc % 2 ^ bits * 2 ^ ((v :: rest).length * fb) +
          digitsVal fb (v :: rest) = P * 2 ^ (rl * fb) + digitsVal fb rest := by
        rw [digitsVal, List.length_cons, ← hrl, hP]
        have e2 : (rl + 1) * fb = rl * fb + fb := by ring
        rw [e2, Nat.pow_add]
        have e3 : fb * rl = rl * fb := by ring
        rw [e3]
        ring
      have e4 : P = X * 2 ^ bits1 + P % 2 ^ bits1 := by
        rw [hX, Nat.div_add_mod']
      rw [e1, e4, hS1, hacc1bits1]
      have e5 : (X * 2 ^ bits1 + P % 2 ^ bits1) * 2 ^ (rl * fb) =
          X * 2 ^ (bits1 + rl * fb) + P % 2 ^ bits1 * 2 ^ (rl * fb) := by
        rw [Nat.pow_add]
        ring
      rw [e5, hKb1, Nat.pow_add]
      ring
    -- bounds
    have hXlt : X < 2 ^ (tb * K0) := by
      rw [hX]
      apply Nat.div_lt_of_lt_mul
      calc P < 2 ^ (bits + fb) := hPlt
        _ = 2 ^ (tb * K0) * 2 ^ bits1 := by rw [← Nat.pow_add, ← hKb]
        _ = 2 ^ bits1 * 2 ^ (tb * K0) := by ring
    have hS1lt : S1 < 2 ^ (tb * K1) * 2 ^ b2 := by
      rw [← Nat.pow_add, ← hKb1, hS1]
      have h1 : acc1 % 2 ^ bits1 < 2 ^ bits1 :=
        Nat.mod_lt _ (Nat.pos_pow_of_pos _ (by omega))
      have h2 : digitsVal fb rest < 2 ^ (fb * rl) := digitsVal_lt fb rest hrest
      have h3 : fb * rl = rl * fb := by ring
      rw [h3] at h2
      rw [Nat.pow_add]
      calc acc1 % 2 ^ bits1 * 2 ^ (rl * fb) + digitsVal fb rest
          < acc1 % 2 ^ bits1 * 2 ^ (rl * fb) + 2 ^ (rl * fb) := by omega
        _ = (acc1 % 2 ^ bits1 + 1) * 2 ^ (rl * fb) := by ring
        _ ≤ 2 ^ bits1 * 2 ^ (rl * fb) := Nat.mul_le_mul_right _ (by omega)
    have hYlt : S1 / 2 ^ b2 < 2 ^ (tb * K1) := by
      apply Nat.div_lt_of_lt_mul
      calc S1 < 2 ^ (tb * K1) * 2 ^ b2 := hS1lt
        _ = 2 ^ b2 * 2 ^ (tb * K1) := by ring
    have hdivtot : (X * 2 ^ (tb * K1) * 2 ^ b2 + S1) / 2 ^ b2 =
        X * 2 ^ (tb * K1) + S1 / 2 ^ b2 := by
      rw [Nat.add_comm, Nat.add_mul_div_right _ _ (Nat.pos_pow_of_pos _ (by omega)),
        Nat.add_comm]
    have hmodtot : (X * 2 ^ (tb * K1) * 2 ^ b2 + S1) % 2 ^ b2 = S1 % 2 ^ b2 := by
      rw [Nat.add_comm, Nat.add_mul_mod_self_right]
    refine ⟨acc2, ?_, ?_⟩
    · rw [convert_bits_loop, if_neg (by simp [hguard])]
      simp only [← hacc1, hemit, ← hbits1, hloop, Option.map_some']
      rw [hbtot, hKtot, hStot, hdivtot, hacc1P, ← hX]
      exact congrArg (fun l => some (l, acc2, b2))
        ((digitsBE_append tb K0 K1 X (S1 / 2 ^ b2) hXlt hYlt).symm)
    · rw [hbtot, hStot, hmodtot]
      exact hacc2
termination_by data => data.length

/-- `convert_bits` with `pad = true` on in-range data: the output is exactly
the big-endian `to_bits`-bit digits of the input bit stream, left-shifted by
the zero padding that completes the last group. -/
theorem convert_bits_pad_spec (fb tb : Nat) (htb : 0 < tb) (data : List Nat)
    (hd : ∀ v ∈ data, v < 2 ^ fb) :
    convert_bits data fb tb true =
      some (digitsBE tb ((data.length * fb + tb - 1) / tb)
        (digitsVal fb data * 2 ^ ((tb - data.length * fb % tb) % tb))) := by
  obtain ⟨acc2, hloop, hacc2⟩ :=
    convert_bits_loop_spec fb tb htb data 0 0 hd htb
  rw [convert_bits, hloop]
  have hz : (0 : Nat) % 2 ^ 0 * 2 ^ (data.length * fb) = 0 := by simp
  rw [Nat.zero_add] at hloop hacc2 ⊢
  simp only [hz, Nat.zero_add] at hloop hacc2 ⊢
  set T := data.length * fb with hT
  set S := digitsVal fb data with hS
  have hSlt : S < 2 ^ T := by
    rw [hS, hT]
    have := digitsVal_lt fb data hd
    have he : fb * data.length = data.length * fb := by ring
    rwa [he] at this
  have hTsplit : T % tb + tb * (T / tb) = T := Nat.mod_add_div T tb
  by_cases hb : T % tb = 0
  · rw [if_pos trivial, if_neg (by simp [hb]), hb]
    have h1 : (T + tb - 1) / tb = T / tb := by
      have h2 : T + tb - 1 = tb * (T / tb) + (tb - 1) := by omega
      rw [h2, Nat.mul_add_div htb,
        Nat.div_eq_of_lt (show tb - 1 < tb by omega), Nat.add_zero]
    rw [h1, Nat.sub_zero, Nat.mod_self, Nat.pow_zero, Nat.mul_one, Nat.div_one]
  · rw [if_pos trivial, if_pos hb]
    have hblt : T % tb < tb := Nat.mod_lt _ htb
    have hpad : (tb - T % tb) % tb = tb - T % tb :=
      Nat.mod_eq_of_lt (by omega)
    have h1 : (T + tb - 1) / tb = T / tb + 1 := by
      have h2 : T + tb - 1 = tb * (T / tb + 1) + (T % tb - 1) := by
        have e : tb * (T / tb + 1) = tb * (T / tb) + tb := by ring
        omega
      rw [h2, Nat.mul_add_div htb,
        Nat.div_eq_of_lt (show T % tb - 1 < tb by omega), Nat.add_zero]
    -- the appended padded digit
    have hdig : (acc2 <<< (tb - T % tb)) &&& (2 ^ tb - 1) =
        S % 2 ^ (T % tb) * 2 ^ (tb - T % tb) := by
      rw [Nat.shiftLeft_eq_mul_pow, Nat.and_pow_two_sub_one_eq_mod]
      have e : (2 : Nat) ^ tb = 2 ^ (T % tb) * 2 ^ (tb - T % tb) := by
        rw [← Nat.pow_add]; congr 1; omega
      rw [e, Nat.mul_mod_mul_right, hacc2]
    rw [h1, hpad, hdig]
    -- split off the final digit
    have hsplit2 : S * 2 ^ (tb - T % tb) =
        S / 2 ^ (T % tb) * 2 ^ (tb * 1) + S % 2 ^ (T % tb) * 2 ^ (tb - T % tb) := by
      have e : S = S / 2 ^ (T % tb) * 2 ^ (T % tb) + S % 2 ^ (T % tb) :=
        (Nat.div_add_mod' S (2 ^ (T % tb))).symm
      calc S * 2 ^ (tb - T % tb)
          = (S / 2 ^ (T % tb) * 2 ^ (T % tb) + S % 2 ^ (T % tb)) *
              2 ^ (tb - T % tb) := by rw [← e]
        _ = S / 2 ^ (T % tb) * (2 ^ (T % tb) * 2 ^ (tb - T % tb)) +
              S % 2 ^ (T % tb) * 2 ^ (tb - T % tb) := by ring
        _ = S / 2 ^ (T % tb) * 2 ^ (tb * 1) + S % 2 ^ (T % tb) * 2 ^ (tb - T % tb) := by
              rw [← Nat.pow_add]
              congr 3
              omega
    rw [hsplit2]
    have hXlt : S / 2 ^ (T % tb) < 2 ^ (tb * (T / tb)) := by
      apply Nat.div_lt_of_lt_mul
      calc S < 2 ^ T := hSlt
        _ = 2 ^ (T % tb) * 2 ^ (tb * (T / tb)) := by
            rw [← Nat.pow_add]; congr 1; omega
    have hYlt : S % 2 ^ (T % tb) * 2 ^ (tb - T % tb) < 2 ^ (tb * 1) := by
      rw [Nat.mul_one]
      have e : (2 : Nat) ^ tb = 2 ^ (T % tb) * 2 ^ (tb - T % tb) := by
        rw [← Nat.pow_add]; congr 1; omega
      rw [e]
      exact Nat.mul_lt_mul_of_lt_of_le
        (Nat.mod_lt _ (Nat.pos_pow_of_pos _ (by omega))) (le_refl _)
        (Nat.pos_pow_of_pos _ (by omega))
    have hone : digitsBE tb 1 (S % 2 ^ (T % tb) * 2 ^ (tb - T % tb)) =
        [S % 2 ^ (T % tb) * 2 ^ (tb - T % tb)] := by
      rw [digitsBE_succ, digitsBE_zero, Nat.mul_zero, Nat.pow_zero, Nat.div_one]
      congr 1
      exact Nat.mod_eq_of_lt (by rw [Nat.mul_one] at hYlt; exact hYlt)
    rw [digitsBE_append tb (T / tb) 1 _ _ hXlt hYlt, hone]

/-! ## Algebra of the `poly_mod` feedback register -/

/-- The XOR of the generator constants selected by the low five bits of `c0`. -/
def poly_mod_gens (c0 : Nat) : Nat :=
  (if c0 &&& 0x01 ≠ 0 then 0x98f2bc8e61 else 0) ^^^
  (if c0 &&& 0x02 ≠ 0 then 0x79b76d99e2 else 0) ^^^
  (if c0 &&& 0x04 ≠ 0 then 0xf33e5fb3c4 else 0) ^^^
  (if c0 &&& 0x08 ≠ 0 then 0xae2eabe2a8 else 0) ^^^
  (if c0 &&& 0x10 ≠ 0 then 0x1e4f43e470 else 0)

theorem ite_xor (b : Prop) [Decidable b] (x g : Nat) :
    (if b then x ^^^ g else x) = x ^^^ (if b then g else 0) := by
  by_cases h : b <;> simp [h]

theorem nat_xor_left_comm (a b c : Nat) : a ^^^ (b ^^^ c) = b ^^^ (a ^^^ c) := by
  rw [← Nat.xor_assoc, Nat.xor_comm a b, Nat.xor_assoc]

theorem poly_mod_step_eq (c v : Nat) :
    poly_mod_step c v =
      (((c &&& 0x07ffffffff) <<< 5) ^^^ poly_mod_gens ((c >>> 35) % 256)) ^^^ v := by
  unfold poly_mod_step poly_mod_gens
  rw [ite_xor, ite_xor, ite_xor, ite_xor, ite_xor]
  simp [Nat.xor_assoc, Nat.xor_comm, nat_xor_left_comm]

theorem poly_mod_step_zero (c v : Nat) :
    poly_mod_step c v = poly_mod_step c 0 ^^^ v := by
  rw [poly_mod_step_eq, poly_mod_step_eq, Nat.xor_zero]

theorem poly_mod_gens_and31 : ∀ c0 < 32, poly_mod_gens c0 &&& 31 = c0 := by decide

theorem poly_mod_gens_zero : poly_mod_gens 0 = 0 := by decide

theorem poly_mod_gens_lt (x : Nat) : poly_mod_gens x < 2 ^ 40 := by
  unfold poly_mod_gens
  apply Nat.xor_lt_two_pow
  apply Nat.xor_lt_two_pow
  apply Nat.xor_lt_two_pow
  apply Nat.xor_lt_two_pow
  all_goals split <;> norm_num

theorem poly_mod_step_lt (c v : Nat) (hv : v < 2 ^ 40) :
    poly_mod_step c v < 2 ^ 40 := by
  rw [poly_mod_step_eq]
  apply Nat.xor_lt_two_pow _ hv
  apply Nat.xor_lt_two_pow _ (poly_mod_gens_lt _)
  rw [Nat.shiftLeft_eq, show (0x07ffffffff : Nat) = 2 ^ 35 - 1 by norm_num,
    Nat.and_pow_two_sub_one_eq_mod]
  have h1 : c % 2 ^ 35 < 2 ^ 35 := Nat.mod_lt _ (by norm_num)
  calc c % 2 ^ 35 * 2 ^ 5 < 2 ^ 35 * 2 ^ 5 :=
        Nat.mul_lt_mul_of_lt_of_le h1 (le_refl _) (by norm_num)
    _ = 2 ^ 40 := by norm_num

/-- XOR distributes over left shift. -/
theorem xor_shiftLeft (a b k : Nat) :
    (a ^^^ b) <<< k = (a <<< k) ^^^ (b <<< k) := by
  apply Nat.eq_of_testBit_eq
  intro j
  simp [Nat.testBit_shiftLeft, Nat.testBit_xor]
  by_cases h : j ≥ k <;> simp [h]

/-- XOR distributes over right shift. -/
theorem xor_shiftRight (a b k : Nat) :
    (a ^^^ b) >>> k = (a >>> k) ^^^ (b >>> k) := by
  apply Nat.eq_of_testBit_eq
  intro j
  simp [Nat.testBit_shiftRight, Nat.testBit_xor]

/-- XOR distributes over truncation to a power of two. -/
theorem xor_mod_two_pow (a b k : Nat) :
    (a ^^^ b) % 2 ^ k = (a % 2 ^ k) ^^^ (b % 2 ^ k) := by
  rw [← Nat.and_pow_two_sub_one_eq_mod, ← Nat.and_pow_two_sub_one_eq_mod,
    ← Nat.and_pow_two_sub_one_eq_mod, Nat.and_xor_distrib_right]

/-- A selected-generator term splits across XOR of the selectors. -/
theorem ite_and_two_pow_xor (g i x y : Nat) :
    (if (x ^^^ y) &&& 2 ^ i ≠ 0 then g else 0) =
      ((if x &&& 2 ^ i ≠ 0 then g else 0) ^^^ (if y &&& 2 ^ i ≠ 0 then g else 0)) := by
  rw [Nat.and_xor_distrib_right, Nat.and_two_pow, Nat.and_two_pow]
  cases hx : x.testBit i <;> cases hy : y.testBit i <;>
    simp [Nat.xor_self, Nat.pos_pow_of_pos, Nat.pow_eq_zero]

/-- `ite_and_two_pow_xor` with the power given as a literal. -/
theorem ite_and_pow_xor (g p i x y : Nat) (hp : p = 2 ^ i) :
    (if (x ^^^ y) &&& p ≠ 0 then g else 0) =
      ((if x &&& p ≠ 0 then g else 0) ^^^ (if y &&& p ≠ 0 then g else 0)) := by
  subst hp
  exact ite_and_two_pow_xor g i x y

theorem poly_mod_gens_xor (x y : Nat) :
    poly_mod_gens (x ^^^ y) = poly_mod_gens x ^^^ poly_mod_gens y := by
  unfold poly_mod_gens
  rw [ite_and_pow_xor 0x98f2bc8e61 0x01 0 x y (by norm_num),
    ite_and_pow_xor 0x79b76d99e2 0x02 1 x y (by norm_num),
    ite_and_pow_xor 0xf33e5fb3c4 0x04 2 x y (by norm_num),
    ite_and_pow_xor 0xae2eabe2a8 0x08 3 x y (by norm_num),
    ite_and_pow_xor 0x1e4f43e470 0x10 4 x y (by norm_num)]
  simp [Nat.xor_assoc, Nat.xor_comm, nat_xor_left_comm]

theorem poly_mod_step_xor (a b v : Nat) :
    poly_mod_step (a ^^^ b) v = poly_mod_step a v ^^^ poly_mod_step b 0 := by
  rw [poly_mod_step_eq, poly_mod_step_eq, poly_mod_step_eq,
    Nat.and_xor_distrib_right, xor_shiftLeft, xor_shiftRight,
    show (256 : Nat) = 2 ^ 8 by norm_num, xor_mod_two_pow,
    poly_mod_gens_xor, Nat.xor_zero]
  simp [Nat.xor_assoc, Nat.xor_comm, nat_xor_left_comm]

theorem foldl_poly_mod_step_xor :
    ∀ (vs : List Nat) (a b : Nat),
      vs.foldl poly_mod_step (a ^^^ b) =
        vs.foldl poly_mod_step a ^^^
          (List.replicate vs.length 0).foldl poly_mod_step b
  | [], a, b => by simp
  | v :: vs, a, b => by
    simp only [List.foldl_cons, List.length_cons, List.replicate_succ]
    rw [poly_mod_step_xor, foldl_poly_mod_step_xor vs]

theorem poly_mod_step_small (v : Nat) (hv : v < 2 ^ 35) :
    poly_mod_step v 0 = v * 32 := by
  rw [poly_mod_step_eq, show (0x07ffffffff : Nat) = 2 ^ 35 - 1 by norm_num,
    Nat.and_pow_two_sub_one_eq_mod, Nat.mod_eq_of_lt hv,
    Nat.shiftRight_eq_div_pow, Nat.div_eq_of_lt hv, Nat.zero_mod,
    poly_mod_gens_zero, Nat.xor_zero, Nat.xor_zero, Nat.shiftLeft_eq]

theorem foldl_poly_mod_step_zeros :
    ∀ (k v : Nat), v * 2 ^ (5 * k) < 2 ^ 40 →
      (List.replicate k 0).foldl poly_mod_step v = v * 2 ^ (5 * k)
  | 0, v, _ => by simp
  | k + 1, v, h => by
    have h32 : v * 32 * 2 ^ (5 * k) < 2 ^ 40 := by
      have e : v * 32 * 2 ^ (5 * k) = v * 2 ^ (5 * (k + 1)) := by
        rw [show 5 * (k + 1) = 5 * k + 5 by ring, Nat.pow_add]
        ring
      rw [e]
      exact h
    have hv35 : v < 2 ^ 35 := by
      have h1 : (1 : Nat) ≤ 2 ^ (5 * k) := Nat.one_le_two_pow
      have h2 : v * 32 ≤ v * 32 * 2 ^ (5 * k) := Nat.le_mul_of_pos_right _ (by omega)
      have h3 : v * 32 < 2 ^ 40 := lt_of_le_of_lt h2 h32
      omega
    simp only [List.replicate_succ, List.foldl_cons]
    rw [poly_mod_step_small v hv35, foldl_poly_mod_step_zeros k (v * 32) h32,
      show 5 * (k + 1) = 5 * k + 5 by ring, Nat.pow_add]
    ring

/-- Disjoint XOR is addition: `(a * 2 ^ k) ^^^ b = a * 2 ^ k + b` for
`b < 2 ^ k`. -/
theorem mul_pow_xor_eq_add (a b k : Nat) (hb : b < 2 ^ k) :
    (a * 2 ^ k) ^^^ b = a * 2 ^ k + b := by
  apply Nat.eq_of_testBit_eq
  intro j
  rw [Nat.testBit_xor, show a * 2 ^ k + b = 2 ^ k * a + b by ring,
    Nat.testBit_mul_pow_two_add a hb j,
    show a * 2 ^ k = a <<< k by rw [Nat.shiftLeft_eq], Nat.testBit_shiftLeft]
  by_cases h : j < k
  · simp [h, Nat.not_le_of_lt h]
  · have hge : j ≥ k := by omega
    have hbj : b < 2 ^ j := lt_of_lt_of_le hb (Nat.pow_le_pow_right (by omega) hge)
    simp [h, hge, Nat.testBit_lt_two_pow hbj]

theorem foldl_poly_mod_step_digits :
    ∀ (k : Nat), k ≤ 8 → ∀ (c x : Nat), x < 2 ^ (5 * k) →
      (digitsBE 5 k x).foldl poly_mod_step c =
        (List.replicate k 0).foldl poly_mod_step c ^^^ x
  | 0, _, c, x, hx => by
    have : x = 0 := by omega
    subst this
    simp [digitsBE_zero]
  | k + 1, hk, c, x, hx => by
    rw [digitsBE_succ, List.foldl_cons, ← digitsBE_mod]
    have e5 : 5 * k = 5 * k := rfl
    have hx' : x % 2 ^ (5 * k) < 2 ^ (5 * k) :=
      Nat.mod_lt _ (Nat.pos_pow_of_pos _ (by omega))
    rw [foldl_poly_mod_step_digits k (by omega) _ _ hx']
    rw [poly_mod_step_zero, foldl_poly_mod_step_xor]
    have hd : x / 2 ^ (5 * k) % 2 ^ 5 < 32 :=
      Nat.mod_lt _ (by norm_num)
    have hdk : x / 2 ^ (5 * k) % 2 ^ 5 * 2 ^ (5 * k) < 2 ^ 40 := by
      calc x / 2 ^ (5 * k) % 2 ^ 5 * 2 ^ (5 * k)
          < 2 ^ 5 * 2 ^ (5 * k) :=
            Nat.mul_lt_mul_of_lt_of_le (Nat.mod_lt _ (by norm_num)) (le_refl _)
              (Nat.pos_pow_of_pos _ (by omega))
        _ = 2 ^ (5 * (k + 1)) := by rw [← Nat.pow_add]; congr 1; ring
        _ ≤ 2 ^ 40 := Nat.pow_le_pow_right (by omega) (by omega)
    rw [List.length_replicate, foldl_poly_mod_step_zeros k _ hdk]
    rw [Nat.xor_assoc]
    congr 1
    rw [mul_pow_xor_eq_add _ _ _ hx']
    have hdiv : x / 2 ^ (5 * k) < 2 ^ 5 := by
      apply Nat.div_lt_of_lt_mul
      calc x < 2 ^ (5 * (k + 1)) := hx
        _ = 2 ^ (5 * k) * 2 ^ 5 := by ring
    rw [Nat.mod_eq_of_lt hdiv, Nat.div_add_mod']

theorem foldl_poly_mod_step_lt :
    ∀ (vs : List Nat) (c : Nat), c < 2 ^ 40 → (∀ v ∈ vs, v < 2 ^ 40) →
      vs.foldl poly_mod_step c < 2 ^ 40
  | [], c, hc, _ => hc
  | v :: vs, c, hc, hv => by
    rw [List.foldl_cons]
    exact foldl_poly_mod_step_lt vs _ (poly_mod_step_lt c v (hv v (by simp)))
      (fun w hw => hv w (by simp [hw]))

/-- The feedback step is injective at zero on 40-bit states. -/
theorem poly_mod_step_eq_zero (c : Nat) (hc : c < 2 ^ 40)
    (h : poly_mod_step c 0 = 0) : c = 0 := by
  rw [poly_mod_step_eq, Nat.xor_zero] at h
  have hx := Nat.xor_eq_zero.mp h
  -- low five bits of both sides
  have hc0 : c >>> 35 % 256 = c / 2 ^ 35 := by
    rw [Nat.shiftRight_eq_div_pow]
    exact Nat.mod_eq_of_lt (by omega)
  have hlt : c / 2 ^ 35 < 32 := by omega
  have hlow : ((c &&& 0x07ffffffff) <<< 5) &&& 31 = 0 := by
    rw [Nat.shiftLeft_eq, show (31 : Nat) = 2 ^ 5 - 1 by norm_num,
      Nat.and_pow_two_sub_one_eq_mod]
    simp [Nat.mul_mod_left]
  have hg : poly_mod_gens (c / 2 ^ 35) &&& 31 = c / 2 ^ 35 :=
    poly_mod_gens_and31 _ hlt
  have hzero : c / 2 ^ 35 = 0 := by
    have := congrArg (fun t => t &&& 31) hx
    simp only at this
    rw [hlow] at this
    rw [hc0] at this
    rw [hg] at this
    omega
  rw [hc0, hzero, poly_mod_gens_zero] at hx
  have h2 : c &&& 0x07ffffffff = 0 := by
    rw [Nat.shiftLeft_eq] at hx
    rcases Nat.mul_eq_zero.mp hx with h' | h'
    · exact h'
    · norm_num at h'
  rw [show (0x07ffffffff : Nat) = 2 ^ 35 - 1 by norm_num,
    Nat.and_pow_two_sub_one_eq_mod] at h2
  omega

/-- Feeding zeros never kills a nonzero 40-bit state. -/
theorem foldl_poly_mod_step_zeros_ne :
    ∀ (k δ : Nat), 0 < δ → δ < 2 ^ 40 →
      (List.replicate k 0).foldl poly_mod_step δ ≠ 0
  | 0, δ, h0, _ => by
    simp only [List.replicate, List.foldl_nil]
    omega
  | k + 1, δ, h0, hδ => by
    simp only [List.replicate_succ, List.foldl_cons]
    have hlt : poly_mod_step δ 0 < 2 ^ 40 := poly_mod_step_lt δ 0 (by norm_num)
    have hne : poly_mod_step δ 0 ≠ 0 := by
      intro h
      exact absurd (poly_mod_step_eq_zero δ hδ h) (by omega)
    exact foldl_poly_mod_step_zeros_ne k _ (Nat.pos_of_ne_zero hne) hlt

/-! ## Checksum correctness and address plumbing -/

theorem calculate_checksum_eq_digits (pfx payload : List Nat) :
    calculate_checksum pfx payload =
      digitsBE 5 8 (poly_mod ((pfx.map (fun x => x &&& 0x1f)) ++ [0] ++
        payload ++ List.replicate 8 0)) := by
  unfold calculate_checksum digitsBE
  apply List.map_congr_left
  intro i _
  rw [Nat.shiftRight_eq_div_pow, show (0x1f : Nat) = 2 ^ 5 - 1 by norm_num,
    Nat.and_pow_two_sub_one_eq_mod]

theorem calculate_checksum_lt (pfx payload : List Nat) :
    ∀ c ∈ calculate_checksum pfx payload, c < 32 := by
  intro c hc
  rw [calculate_checksum_eq_digits] at hc
  exact digitsBE_lt 5 8 _ c hc

theorem calculate_checksum_length (pfx payload : List Nat) :
    (calculate_checksum pfx payload).length = 8 := by
  rw [calculate_checksum_eq_digits, digitsBE_length]

/-- The computed checksum makes `verify_checksum` accept. -/
theorem verify_calculate_checksum (pfx payload : List Nat)
    (hp : ∀ v ∈ payload, v < 2 ^ 40) :
    verify_checksum pfx (payload ++ calculate_checksum pfx payload) = true := by
  unfold verify_checksum
  rw [calculate_checksum_eq_digits]
  have hvsbound : ∀ v ∈ (pfx.map (fun x => x &&& 0x1f)) ++ [0] ++ payload,
      v < 2 ^ 40 := by
    intro v hv
    rcases List.mem_append.mp hv with h | h
    · rcases List.mem_append.mp h with h' | h'
      · obtain ⟨b, _, rfl⟩ := List.mem_map.mp h'
        have hb : b &&& 0x1f ≤ 0x1f := Nat.and_le_right
        omega
      · simp at h'
        omega
    · exact hp v h
  set vs := (pfx.map (fun x => x &&& 0x1f)) ++ [0] ++ payload with hvs
  set A := vs.foldl poly_mod_step 1 with hA
  have hAlt : A < 2 ^ 40 :=
    foldl_poly_mod_step_lt vs 1 (by norm_num) hvsbound
  have hzlt : (List.replicate 8 0).foldl poly_mod_step A < 2 ^ 40 :=
    foldl_poly_mod_step_lt _ A hAlt (by simp)
  have hpolyval : poly_mod (vs ++ List.replicate 8 0) =
      (List.replicate 8 0).foldl poly_mod_step A ^^^ 1 := by
    unfold poly_mod
    rw [List.foldl_append, ← hA]
  have hgroup : (pfx.map (fun x => x &&& 0x1f)) ++ [0] ++ payload ++
      List.replicate 8 0 = vs ++ List.replicate 8 0 := by rw [hvs]
  rw [hgroup, hpolyval]
  have hpolylt : (List.replicate 8 0).foldl poly_mod_step A ^^^ 1 < 2 ^ 40 :=
    Nat.xor_lt_two_pow hzlt (by norm_num)
  have hverarg : (pfx.map (fun x => x &&& 0x1f)) ++ [0] ++
      (payload ++ digitsBE 5 8 ((List.replicate 8 0).foldl poly_mod_step A ^^^ 1)) =
      vs ++ digitsBE 5 8 ((List.replicate 8 0).foldl poly_mod_step A ^^^ 1) := by
    rw [hvs]
    simp [List.append_assoc]
  rw [hverarg]
  unfold poly_mod
  rw [List.foldl_append, ← hA,
    foldl_poly_mod_step_digits 8 le_rfl A _ (by exact hpolylt)]
  simp only [beq_iff_eq]
  have hcancel : ∀ z : Nat, (z ^^^ (z ^^^ 1)) ^^^ 1 = 0 := by
    intro z
    rw [Nat.xor_cancel_left, Nat.xor_self]
  calc ((List.replicate 8 0).foldl poly_mod_step A ^^^
        ((List.replicate 8 0).foldl poly_mod_step A ^^^ 1)) ^^^ 1 = 0 :=
      hcancel _

theorem position_append_of_ne (x : Nat) (l1 l2 : List Nat)
    (h : ∀ b ∈ l1, b ≠ x) :
    position x (l1 ++ x :: l2) = some l1.length := by
  induction l1 with
  | nil => simp [position]
  | cons b l1 ih =>
    simp only [List.cons_append, position, List.append_eq]
    rw [if_neg (h b (by simp))]
    have hih := ih (fun c hc => h c (by simp [hc]))
    simp only [List.append_eq] at hih
    rw [hih]
    simp

theorem split_addr_encoded (pfx chars : List Nat) (hpfx : ∀ b ∈ pfx, b ≠ 58) :
    split_addr (pfx ++ [58] ++ chars) = (pfx, chars) := by
  unfold split_addr
  have he : pfx ++ [58] ++ chars = pfx ++ 58 :: chars := by simp
  rw [he, position_append_of_ne 58 pfx chars hpfx]
  have ht : (pfx ++ 58 :: chars).take pfx.length = pfx := List.take_left pfx _
  have hd : (pfx ++ 58 :: chars).drop (pfx.length + 1) = chars := by
    have he2 : pfx ++ 58 :: chars = (pfx ++ [58]) ++ chars := by simp
    have he3 : pfx.length + 1 = (pfx ++ [58]).length := by simp
    rw [he2, he3, List.drop_left]
  show ((pfx ++ 58 :: chars).take pfx.length,
    (pfx ++ 58 :: chars).drop (pfx.length + 1)) = (pfx, chars)
  rw [ht, hd]

theorem charset_position : ∀ d < 32, position (CHARSET.getD d 0) CHARSET = some d := by
  decide

theorem charset_mem : ∀ d < 32, CHARSET.getD d 0 ∈ CHARSET := by decide

theorem charset_ne_colon : ∀ c ∈ CHARSET, c ≠ 58 := by decide

theorem charset_lower : ∀ c ∈ CHARSET, to_ascii_lowercase c = c := by decide

theorem b32_encode_mem (ds : List Nat) (hds : ∀ d ∈ ds, d < 32) :
    ∀ c ∈ b32_encode ds, c ∈ CHARSET := by
  intro c hc
  obtain ⟨d, hd, rfl⟩ := List.mem_map.mp hc
  exact charset_mem d (hds d hd)

theorem b32_decode_go_encode :
    ∀ (ds : List Nat) (i0 : Nat), (∀ d ∈ ds, d < 32) →
      b32_decode_go i0 (b32_encode ds) = Except.ok ds
  | [], _, _ => rfl
  | d :: ds, i0, h => by
    have hd : d < 32 := h d (by simp)
    simp only [b32_encode, List.map_cons, b32_decode_go]
    rw [charset_position d hd]
    show Except.map (fun l => d :: l) (b32_decode_go (i0 + 1) (b32_encode ds)) =
      Except.ok (d :: ds)
    rw [b32_decode_go_encode ds (i0 + 1) (fun e he => h e (by simp [he]))]
    rfl

theorem b32_decode_encode (ds : List Nat) (h : ∀ d ∈ ds, d < 32) :
    b32_decode (b32_encode ds) = Except.ok ds :=
  b32_decode_go_encode ds 0 h

theorem map_lower_of_charset (chars : List Nat) (h : ∀ c ∈ chars, c ∈ CHARSET) :
    chars.map to_ascii_lowercase = chars := by
  have := List.map_congr_left (l := chars) (f := to_ascii_lowercase) (g := id)
    (fun c hc => charset_lower c (h c hc))
  rw [this, List.map_id]

/-- Running `from_cash_addr` on a well-formed encoding whose checksum fails. -/
theorem from_cash_addr_encoded_badsum (pfx ds : List Nat)
    (hpfx_low : pfx.map to_ascii_lowercase = pfx)
    (hpfx_col : ∀ b ∈ pfx, b ≠ 58) (hds : ∀ d ∈ ds, d < 32)
    (hver : verify_checksum pfx ds = false) :
    from_cash_addr (pfx ++ [58] ++ b32_encode ds) =
      FromCashAddrResult.err AddressError.InvalidChecksum := by
  have hlow : (pfx ++ [58] ++ b32_encode ds).map to_ascii_lowercase =
      pfx ++ [58] ++ b32_encode ds := by
    simp [List.map_append, hpfx_low,
      map_lower_of_charset _ (b32_encode_mem ds hds), to_ascii_lowercase]
  simp only [from_cash_addr, hlow, split_addr_encoded pfx _ hpfx_col,
    b32_decode_encode ds hds, hver, if_pos]

/-- Running `from_cash_addr` on a well-formed encoding that decodes cleanly. -/
theorem from_cash_addr_encoded_ok (pfx ds conv : List Nat) (t : AddressType)
    (hpfx_low : pfx.map to_ascii_lowercase = pfx)
    (hpfx_col : ∀ b ∈ pfx, b ≠ 58) (hds : ∀ d ∈ ds, d < 32)
    (hver : verify_checksum pfx ds = true)
    (hconv : convert_bits ds 5 8 true = some conv)
    (hconvlen : conv.length = 27) (hhead : conv.headD 0 = t.toNat) :
    from_cash_addr (pfx ++ [58] ++ b32_encode ds) =
      FromCashAddrResult.ok ((conv.drop 1).take 20) t pfx := by
  have hlow : (pfx ++ [58] ++ b32_encode ds).map to_ascii_lowercase =
      pfx ++ [58] ++ b32_encode ds := by
    simp [List.map_append, hpfx_low,
      map_lower_of_charset _ (b32_encode_mem ds hds), to_ascii_lowercase]
  cases t <;>
    simp only [AddressType.toNat] at hhead <;>
    simp only [from_cash_addr, hlow, split_addr_encoded pfx _ hpfx_col,
      b32_decode_encode ds hds, hver, hconv, hconvlen, hhead, if_pos,
      Bool.true_eq_false, if_false, reduceIte]

set_option maxHeartbeats 2000000 in
/-- C5: for every `addr_type ∈ {P2PKH, P2SH}`, every 20-byte hash and every
prefix in `{"bitcoincash", "simpleledger"}`, decoding the encoded address
returns exactly `(hash, addr_type, prefix)`, and the encoded string is the
prefix, a colon, and base32 digits. -/
theorem cash_addr_round_trip (addr_type : AddressType) (hash : List Nat)
    (hlen : hash.length = 20) (hbytes : ∀ b ∈ hash, b < 256) (pfx : List Nat)
    (hpfx : pfx = DEFAULT_PREFIX ∨
      pfx = [115, 105, 109, 112, 108, 101, 108, 101, 100, 103, 101, 114]) :
    from_cash_addr (to_cash_addr pfx addr_type hash) =
      FromCashAddrResult.ok hash addr_type pfx ∧
    ∃ digits : List Nat, (∀ d ∈ digits, d < 32) ∧
      to_cash_addr pfx addr_type hash = pfx ++ [58] ++ b32_encode digits := by
  have hplow : pfx.map to_ascii_lowercase = pfx := by
    rcases hpfx with h | h <;> subst h <;> decide
  have hpcol : ∀ b ∈ pfx, b ≠ 58 := by
    rcases hpfx with h | h <;> subst h <;> decide
  have ht256 : addr_type.toNat < 256 := by
    cases addr_type <;> simp [AddressType.toNat]
  have hdata : ∀ v ∈ addr_type.toNat :: hash, v < 2 ^ 8 := by
    intro v hv
    rcases List.mem_cons.mp hv with h | h
    · subst h; exact ht256
    · exact hbytes v h
  have hlen21 : (addr_type.toNat :: hash).length = 21 := by simp [hlen]
  -- the 5-bit payload
  have hconv1 := convert_bits_pad_spec 8 5 (by norm_num) (addr_type.toNat :: hash) hdata
  rw [hlen21] at hconv1
  norm_num at hconv1
  set A := digitsVal 8 (addr_type.toNat :: hash) with hA
  set payload := digitsBE 5 34 (A * 4) with hpayload
  have hAlt : A < 2 ^ 168 := by
    have h1 := digitsVal_lt 8 (addr_type.toNat :: hash) hdata
    rw [hlen21] at h1
    norm_num at h1
    exact h1
  set cs := calculate_checksum pfx payload with hcs
  set digits := payload ++ cs with hdigits
  have hplt : ∀ d ∈ payload, d < 32 := fun d hd => digitsBE_lt 5 34 _ d hd
  have hdig32 : ∀ d ∈ digits, d < 32 := by
    intro d hd
    rcases List.mem_append.mp hd with h | h
    · exact hplt d h
    · exact calculate_checksum_lt pfx payload d h
  have hdiglen : digits.length = 42 := by
    rw [hdigits, List.length_append, hpayload, digitsBE_length, hcs,
      calculate_checksum_length]
  -- the encoded string
  have htoc : to_cash_addr pfx addr_type hash = pfx ++ [58] ++ b32_encode digits := by
    unfold to_cash_addr
    rw [hconv1]
    rfl
  refine ⟨?_, digits, hdig32, htoc⟩
  rw [htoc]
  -- checksum verifies
  have hver : verify_checksum pfx digits = true := by
    rw [hdigits, hcs]
    exact verify_calculate_checksum pfx payload (fun v hv => by
      have := hplt v hv; omega)
  -- the 8-bit conversion of the decoded digits
  have hconv2 := convert_bits_pad_spec 5 8 (by norm_num) digits hdig32
  rw [hdiglen] at hconv2
  norm_num at hconv2
  -- the converted bytes are the original bytes plus a 6-byte tail
  set C := digitsVal 5 cs with hC
  have hClt : C < 2 ^ 40 := by
    have h1 := digitsVal_lt 5 cs (fun c hc => calculate_checksum_lt pfx payload c hc)
    rw [hcs, calculate_checksum_length] at h1
    norm_num at h1
    rw [hC, hcs]
    exact h1
  have hval : digitsVal 5 digits * 64 = A * 2 ^ 48 + C * 64 := by
    rw [hdigits, digitsVal_append, hcs, calculate_checksum_length, ← hcs, ← hC,
      hpayload, digitsVal_digitsBE]
    have hmod : A * 4 % 2 ^ (5 * 34) = A * 4 := Nat.mod_eq_of_lt (by
      have : (2 : Nat) ^ (5 * 34) = 2 ^ 170 := by norm_num
      rw [this]
      have h4 : A * 4 < 2 ^ 168 * 4 := by omega
      calc A * 4 < 2 ^ 168 * 4 := h4
        _ ≤ 2 ^ 170 := by norm_num)
    rw [hmod]
    have e : (2 : Nat) ^ (5 * 8) = 2 ^ 40 := by norm_num
    rw [e]
    have e2 : A * 4 * 2 ^ 40 * 64 = A * 2 ^ 48 := by
      have e3 : (4 : Nat) * 2 ^ 40 * 64 = 2 ^ 48 := by norm_num
      calc A * 4 * 2 ^ 40 * 64 = A * (4 * 2 ^ 40 * 64) := by ring
        _ = A * 2 ^ 48 := by rw [e3]
    calc (A * 4 * 2 ^ 40 + C) * 64 = A * 4 * 2 ^ 40 * 64 + C * 64 := by ring
      _ = A * 2 ^ 48 + C * 64 := by rw [e2]
  have hsplit : digitsBE 8 27 (digitsVal 5 digits * 64) =
      (addr_type.toNat :: hash) ++ digitsBE 8 6 (C * 64) := by
    rw [hval]
    have h48 : A * 2 ^ 48 + C * 64 = A * 2 ^ (8 * 6) + C * 64 := by norm_num
    rw [h48]
    have hC64 : C * 64 < 2 ^ (8 * 6) := by
      have : (2 : Nat) ^ (8 * 6) = 2 ^ 40 * 256 := by norm_num
      rw [this]
      omega
    have hA21 : A < 2 ^ (8 * 21) := by
      have : (2 : Nat) ^ (8 * 21) = 2 ^ 168 := by norm_num
      rw [this]
      exact hAlt
    have hap := digitsBE_append 8 21 6 A (C * 64) hA21 hC64
    rw [show (21 + 6 : Nat) = 27 by norm_num] at hap
    have hd := digitsBE_digitsVal 8 (addr_type.toNat :: hash) hdata
    rw [hlen21] at hd
    rw [← hA] at hd
    rw [hap, hd]
  have hconvlen : (digitsBE 8 27 (digitsVal 5 digits * 64)).length = 27 :=
    digitsBE_length 8 27 _
  have hhead : (digitsBE 8 27 (digitsVal 5 digits * 64)).headD 0 =
      addr_type.toNat := by
    rw [hsplit]
    simp
  have hfinal : ((digitsBE 8 27 (digitsVal 5 digits * 64)).drop 1).take 20 = hash := by
    rw [hsplit]
    have h1 : ((addr_type.toNat :: hash) ++ digitsBE 8 6 (C * 64)).drop 1 =
        hash ++ digitsBE 8 6 (C * 64) := by simp
    rw [h1, ← hlen, List.take_left]
  rw [from_cash_addr_encoded_ok pfx digits _ addr_type hplow hpcol hdig32 hver
    hconv2 hconvlen hhead, hfinal]

/-- Changing one input value of the register fold XORs in the evolved
difference. -/
theorem foldl_poly_mod_step_set :
    ∀ (l : List Nat) (j : Nat) (d' c : Nat), j < l.length →
      (l.set j d').foldl poly_mod_step c =
        l.foldl poly_mod_step c ^^^
          (List.replicate (l.length - 1 - j) 0).foldl poly_mod_step
            (l.getD j 0 ^^^ d')
  | [], j, d', c, h => by simp at h
  | x :: xs, 0, d', c, _ => by
    simp only [List.set_cons_zero, List.foldl_cons, List.getD_cons_zero,
      List.length_cons, Nat.add_sub_cancel, Nat.sub_zero]
    have e : poly_mod_step c d' = poly_mod_step c x ^^^ (x ^^^ d') := by
      rw [poly_mod_step_zero c d', poly_mod_step_zero c x, Nat.xor_assoc,
        Nat.xor_cancel_left]
    rw [e, foldl_poly_mod_step_xor xs (poly_mod_step c x) (x ^^^ d')]
  | x :: xs, j + 1, d', c, h => by
    simp only [List.set_cons_succ, List.foldl_cons, List.getD_cons_succ,
      List.length_cons]
    rw [foldl_poly_mod_step_set xs j d' (poly_mod_step c x) (by simpa using h)]
    have e : xs.length + 1 - 1 - (j + 1) = xs.length - 1 - j := by omega
    rw [e]

/-- Replacing one 5-bit digit of a checksum-valid payload always breaks the
checksum. -/
theorem verify_checksum_flip (pfx digits : List Nat) (j d' : Nat)
    (hj : j < digits.length) (hd32 : ∀ d ∈ digits, d < 32) (hd' : d' < 32)
    (hne : d' ≠ digits.getD j 0)
    (hver : verify_checksum pfx digits = true) :
    verify_checksum pfx (digits.set j d') = false := by
  unfold verify_checksum at hver ⊢
  rw [beq_iff_eq] at hver
  unfold poly_mod at hver ⊢
  set pre := pfx.map (fun x => x &&& 0x1f) ++ [0] with hpre
  have hfold1 : (pre ++ digits).foldl poly_mod_step 1 = 1 := by
    have h1 := hver
    have h2 : (pre ++ digits).foldl poly_mod_step 1 ^^^ 1 = 0 := h1
    have := Nat.xor_eq_zero.mp h2
    exact this
  rw [List.foldl_append] at hfold1
  rw [List.foldl_append, foldl_poly_mod_step_set digits j d' _ hj, hfold1]
  set δ := digits.getD j 0 ^^^ d' with hδ
  have hdj : digits.getD j 0 < 32 := by
    rw [List.getD_eq_getElem digits 0 hj]
    exact hd32 _ (List.getElem_mem hj)
  have hδ32 : δ < 2 ^ 5 := by
    rw [hδ]
    exact Nat.xor_lt_two_pow (by omega) (by omega)
  have hδne : δ ≠ 0 := by
    rw [hδ]
    intro hcontra
    exact hne (Nat.xor_eq_zero.mp hcontra).symm
  have hD := foldl_poly_mod_step_zeros_ne (digits.length - 1 - j) δ
    (Nat.pos_of_ne_zero hδne) (lt_of_lt_of_le hδ32 (by norm_num))
  simp only [beq_eq_false_iff_ne, ne_eq]
  intro hcontra
  apply hD
  have h3 : (1 : Nat) ^^^
      (List.replicate (digits.length - 1 - j) 0).foldl poly_mod_step δ ^^^ 1 =
      (List.replicate (digits.length - 1 - j) 0).foldl poly_mod_step δ := by
    rw [Nat.xor_comm 1, Nat.xor_assoc, Nat.xor_self, Nat.xor_zero]
  rw [h3] at hcontra
  exact hcontra

theorem charset_surj : ∀ c ∈ CHARSET, ∃ d, d < 32 ∧ CHARSET.getD d 0 = c := by
  decide

/-- Every `to_cash_addr` output is the prefix, a colon, and the base32
encoding of a checksum-valid list of 5-bit digits. -/
theorem to_cash_addr_form (addr_type : AddressType) (hash : List Nat)
    (hlen : hash.length = 20) (hbytes : ∀ b ∈ hash, b < 256) (pfx : List Nat) :
    ∃ digits : List Nat, (∀ d ∈ digits, d < 32) ∧
      verify_checksum pfx digits = true ∧
      to_cash_addr pfx addr_type hash = pfx ++ [58] ++ b32_encode digits := by
  have ht256 : addr_type.toNat < 256 := by
    cases addr_type <;> simp [AddressType.toNat]
  have hdata : ∀ v ∈ addr_type.toNat :: hash, v < 2 ^ 8 := by
    intro v hv
    rcases List.mem_cons.mp hv with h | h
    · subst h; exact ht256
    · exact hbytes v h
  have hlen21 : (addr_type.toNat :: hash).length = 21 := by simp [hlen]
  have hconv1 := convert_bits_pad_spec 8 5 (by norm_num) (addr_type.toNat :: hash) hdata
  rw [hlen21] at hconv1
  norm_num at hconv1
  set A := digitsVal 8 (addr_type.toNat :: hash) with hA
  set payload := digitsBE 5 34 (A * 4) with hpayload
  set cs := calculate_checksum pfx payload with hcs
  set digits := payload ++ cs with hdigits
  have hplt : ∀ d ∈ payload, d < 32 := fun d hd => digitsBE_lt 5 34 _ d hd
  have hdig32 : ∀ d ∈ digits, d < 32 := by
    intro d hd
    rcases List.mem_append.mp hd with h | h
    · exact hplt d h
    · exact calculate_checksum_lt pfx payload d h
  have htoc : to_cash_addr pfx addr_type hash = pfx ++ [58] ++ b32_encode digits := by
    unfold to_cash_addr
    rw [hconv1]
    rfl
  have hver : verify_checksum pfx digits = true := by
    rw [hdigits, hcs]
    exact verify_calculate_checksum pfx payload (fun v hv => by
      have := hplt v hv; omega)
  exact ⟨digits, hdig32, hver, htoc⟩

/-! ## Claim theorems: script, preimage and builder -/

/-- Pointwise form of `TxOutput.write_to_stream`, for rewriting under `map`. -/
theorem TxOutput.write_to_stream_def :
    TxOutput.write_to_stream =
      fun o => u64le o.value ++ write_var_str o.script.to_vec :=
  funext fun o => by simp [TxOutput.write_to_stream, write_var_str]

/-- C1: for every `EnforceOutputsOutput`, `script()` returns exactly the op
sequence `OP_IF; Push(outputs_pre); OP_SWAP; OP_CAT; OP_HASH256; OP_CAT;
OP_SWAP; OP_CAT; OP_SHA256; OP_3DUP; OP_DROP; Push(0x41); OP_CAT; OP_SWAP;
OP_CHECKSIGVERIFY; OP_ROT; OP_CHECKDATASIG; OP_ELSE; OP_DUP; OP_HASH160;
Push(cancel hash160); OP_EQUALVERIFY; OP_CHECKSIG; OP_ENDIF`, where
`outputs_pre` concatenates, over the enforced outputs in order, each output's
`value u64 LE || varstr(script bytes)`. -/
theorem enforce_outputs_script_ops (o : EnforceOutputsOutput) :
    o.script = Script.new [
      Op.Code OpIf,
      Op.Push ((o.enforced_outputs.map (fun e =>
        u64le e.value ++ write_var_str e.script.to_vec)).flatten),
      Op.Code OpSwap, Op.Code OpCat, Op.Code OpHash256,
      Op.Code OpCat, Op.Code OpSwap, Op.Code OpCat, Op.Code OpSha256,
      Op.Code Op3Dup, Op.Code OpDrop, Op.Push [0x41], Op.Code OpCat,
      Op.Code OpSwap, Op.Code OpCheckSigVerify, Op.Code OpRot,
      Op.Code OpCheckDataSig,
      Op.Code OpElse,
      Op.Code OpDup, Op.Code OpHash160, Op.Push o.cancel_address.bytes,
      Op.Code OpEqualVerify, Op.Code OpCheckSig,
      Op.Code OpEndIf] := by
  simp [EnforceOutputsOutput.script, TxOutput.write_to_stream, write_var_str]

/-- C2: `pre_images(sighash_type)` returns one `PreImage` per input, in input
order, with the shared `hash_prevouts`, `hash_sequence` and `hash_outputs`
double-SHA256 digests built from the stated concatenations, and the full
serialization of the i-th preimage is `version i32 LE || hash_prevouts ||
hash_sequence || tx_hash || output_index u32 LE || varstr(script_code_i) ||
value_i u64 LE || sequence_i u32 LE || hash_outputs || lock_time u32 LE ||
sighash_type u32 LE`. -/
theorem pre_images_spec (sha256 : List Nat → List Nat) (tx : IncompleteTx)
    (sighash_type : Nat) :
    pre_images sha256 tx sighash_type = tx.inputs.map (fun input =>
      { version := tx.version
        hash_prevouts := sha256 (sha256 ((tx.inputs.map (fun i =>
          i.outpoint.tx_hash ++ u32le i.outpoint.output_idx)).flatten))
        hash_sequence := sha256 (sha256 ((tx.inputs.map (fun i =>
          u32le i.sequence)).flatten))
        outpoint := input.outpoint
        script_code := input.output.script_code
        value := input.output.value
        sequence := input.sequence
        hash_outputs := sha256 (sha256 ((tx.outputs.map (fun o =>
          u64le o.value ++ write_var_str o.script.to_vec)).flatten))
        lock_time := tx.lock_time
        sighash_type := sighash_type }) ∧
    (pre_images sha256 tx sighash_type).map PreImage.write_to_stream =
      tx.inputs.map (fun input =>
        u32le tx.version ++
        sha256 (sha256 ((tx.inputs.map (fun i =>
          i.outpoint.tx_hash ++ u32le i.outpoint.output_idx)).flatten)) ++
        sha256 (sha256 ((tx.inputs.map (fun i => u32le i.sequence)).flatten)) ++
        input.outpoint.tx_hash ++ u32le input.outpoint.output_idx ++
        write_var_str input.output.script_code.to_vec ++
        u64le input.output.value ++ u32le input.sequence ++
        sha256 (sha256 ((tx.outputs.map (fun o =>
          u64le o.value ++ write_var_str o.script.to_vec)).flatten)) ++
        u32le tx.lock_time ++ u32le sighash_type) := by
  constructor
  · simp [pre_images, double_sha256, TxOutput.write_to_stream_def, write_var_str]
  · simp [pre_images, double_sha256, TxOutput.write_to_stream_def, write_var_str,
      PreImage.write_to_stream, PreImage.write_to_stream_flags, List.map_map,
      Function.comp_def]

/-- C3: for every `PreImage p`, the bytes written with exactly the flags
`version .. sequence` set, followed by `p.hash_outputs`, followed by the bytes
written with exactly `lock_time` and `sighash_type` set, equal the bytes
written by `write_to_stream` (all ten flags set). -/
theorem pre_image_fragmentation (p : PreImage) :
    p.write_to_stream_flags
      { version := true, hash_prevouts := true, hash_sequence := true,
        outpoint := true, script_code := true, value := true, sequence := true,
        hash_outputs := false, lock_time := false, sighash_type := false } ++
    p.hash_outputs ++
    p.write_to_stream_flags
      { version := false, hash_prevouts := false, hash_sequence := false,
        outpoint := false, script_code := false, value := false,
        sequence := false, hash_outputs := false, lock_time := true,
        sighash_type := true } =
    p.write_to_stream := by
  simp [PreImage.write_to_stream, PreImage.write_to_stream_flags]

/-- A concrete covenant output in buy mode, used as counterexample input. -/
def c4Output : EnforceOutputsOutput :=
  { value := 0
    cancel_address :=
      { addr_type := AddressType.P2PKH, bytes := [0x07], pfx := [] }
    enforced_outputs := []
    is_cancel := some false }

/-- A concrete preimage with empty hashes and zero numeric fields. -/
def c4PreImage : PreImage :=
  { version := 0, hash_prevouts := [], hash_sequence := [],
    outpoint := { tx_hash := [], output_idx := 0 },
    script_code := Script.empty, value := 0, sequence := 0,
    hash_outputs := [], lock_time := 0, sighash_type := 0 }

/-- C4 counterexample: with `is_cancel = Some(false)`, signature `[0xaa, 0x41]`
and pubkey `[0x02]`, `sig_script` does not push the signature first as the
claim states (the source pushes the pubkey first); and the claim's
unconditional return also fails: the source panics on an empty signature
(`remove(len - 1)`) and on an outputs list shorter than the enforced list
(the slice `outputs[N..]`). -/
theorem enforce_sig_script_claim_counterexample :
    ¬ (c4Output.sig_script [0xaa, 0x41] [0x02] c4PreImage [] =
      some (Script.new [
        Op.Push [0xaa],
        Op.Push [0x02],
        Op.Push [0, 0, 0, 0, 0, 0, 0, 0],
        Op.Push [0, 0, 0, 0, 0, 0, 0, 0, 0, 0, 0, 0, 0, 0, 0, 0, 0, 0, 0, 0, 0],
        Op.Push [],
        Op.Push [0x01]])) ∧
    c4Output.sig_script [] [0x02] c4PreImage [] = none ∧
    { c4Output with
        enforced_outputs := [⟨0, Script.empty, Script.empty⟩] }.sig_script
      [0xaa, 0x41] [0x02] c4PreImage [] = none := by decide

/-- C4 (amended): with `is_cancel = Some(false)`, a nonempty serialized
signature (the source panics on an empty one), and an outputs list at least
as long as the enforced list (the source panics otherwise), `sig_script`
returns exactly six pushes in this order: (1) the serialized pubkey bytes,
(2) the signature minus its trailing sighash byte, (3) `pre_image_end`
(`lock_time` and `sighash_type`), (4) `pre_image_begin` (`version` through
`sequence`), (5) `outputs_end` (the outputs after the first
`N = #enforced_outputs`), and (6) the single byte `0x01`. -/
theorem enforce_sig_script_buy (o : EnforceOutputsOutput)
    (serialized_sig pub_key : List Nat) (pre_image : PreImage)
    (outputs : List TxOutput) (hc : o.is_cancel = some false)
    (hs : serialized_sig ≠ [])
    (ho : o.enforced_outputs.length ≤ outputs.length) :
    o.sig_script serialized_sig pub_key pre_image outputs =
      some (Script.new [
        Op.Push pub_key,
        Op.Push serialized_sig.dropLast,
        Op.Push (u32le pre_image.lock_time ++ u32le pre_image.sighash_type),
        Op.Push (u32le pre_image.version ++ pre_image.hash_prevouts ++
          pre_image.hash_sequence ++ pre_image.outpoint.tx_hash ++
          u32le pre_image.outpoint.output_idx ++
          write_var_str pre_image.script_code.to_vec ++
          u64le pre_image.value ++ u32le pre_image.sequence),
        Op.Push (((outputs.drop o.enforced_outputs.length).map (fun t =>
          u64le t.value ++ write_var_str t.script.to_vec)).flatten),
        Op.Push [0x01]]) := by
  simp [EnforceOutputsOutput.sig_script, hc, hs, Nat.not_lt.mpr ho,
    PreImage.write_to_stream_flags, TxOutput.write_to_stream_def, write_var_str]

/-- Witness for `enforce_sig_script_buy` at a concrete input. -/
theorem enforce_sig_script_buy_witness :
    c4Output.is_cancel = some false ∧ ([0xaa, 0x41] : List Nat) ≠ [] ∧
    c4Output.enforced_outputs.length ≤ ([] : List TxOutput).length ∧
    c4Output.sig_script [0xaa, 0x41] [0x02] c4PreImage [] =
      some (Script.new [
        Op.Push [0x02],
        Op.Push [0xaa],
        Op.Push [0, 0, 0, 0, 0, 0, 0, 0],
        Op.Push [0, 0, 0, 0, 0, 0, 0, 0, 0, 0, 0, 0, 0, 0, 0, 0, 0, 0, 0, 0, 0],
        Op.Push [],
        Op.Push [0x01]]) :=
  ⟨by decide, by decide, by decide,
    enforce_sig_script_buy c4Output [0xaa, 0x41] [0x02] c4PreImage []
      (by decide) (by decide) (by decide)⟩

/-- C6 (evaluation at the failing input): with the minimal-push policy the
source emits the length byte `0x01` before noticing the minimal-push case, so
`Push([k])` for `k ∈ [1, 16]` serializes to the two bytes `[0x01, 0x50 + k]`
rather than the single byte `0x50 + k` the claim and spec state; `Push([0])`
and `Push([])` serialize as claimed. -/
theorem minimal_push_encoding_eval :
    (Op.Push [1]).write_to_stream true = [0x01, 0x51] ∧
    (Op.Push [16]).write_to_stream true = [0x01, 0x60] ∧
    (Op.Push [1]).write_to_stream true ≠ [0x51] ∧
    (Op.Push [0]).write_to_stream true = [0x01, 0x00] ∧
    (Op.Push ([] : List Nat)).write_to_stream true = [0x00] := by decide

/-- C7 (evaluation at the failing input): parsing `[0x4c, 0x02, 0xaa, 0xbb]`
should give the single op `Push([0xaa, 0xbb])`, but the source's `0x4c` branch
slices from the length byte itself and advances one byte short, yielding
`Push([0x02, 0xaa])` and then parsing `0xbb` as an opcode. -/
theorem from_serialized_0x4c_eval :
    Script.from_serialized [0x4c, 0x02, 0xaa, 0xbb] =
      Script.new [Op.Push [0x02, 0xaa], Op.Code 0xbb] ∧
    Script.from_serialized [0x4c, 0x02, 0xaa, 0xbb] ≠
      Script.new [Op.Push [0xaa, 0xbb]] := by decide

/-- C9: the variable-length integer encoding round-trips for every `u64`, and
follows the format: one byte for `n < 0xfd`; `0xfd` plus u16 LE for
`n ≤ 0xffff`; `0xfe` plus u32 LE for `n ≤ 0xffffffff`; `0xff` plus u64 LE
otherwise. -/
theorem var_int_round_trip (n : Nat) (h : n < 2 ^ 64) :
    read_var_int (write_var_int n) = some (n, []) ∧
    write_var_int n =
      (if n < 0xfd then [n]
       else if n ≤ 0xffff then 0xfd :: u16le n
       else if n ≤ 0xffffffff then 0xfe :: u32le n
       else 0xff :: u64le n) := by
  by_cases h1 : n ≤ 0xfc
  · constructor
    · simp [write_var_int, read_var_int, h1, Nat.mod_eq_of_lt (by omega : n < 256)]
    · simp [write_var_int, h1, Nat.mod_eq_of_lt (by omega : n < 256),
        show n < 0xfd by omega]
  · have h1' : ¬ n < 0xfd := by omega
    by_cases h2 : n ≤ 0xffff
    · constructor
      · simp [write_var_int, read_var_int, h1, h2, u16le, readU16le]
        omega
      · simp [write_var_int, h1, h2, h1']
    · by_cases h3 : n ≤ 0xffffffff
      · constructor
        · simp [write_var_int, read_var_int, h1, h2, h3, u32le, readU32le]
          omega
        · simp [write_var_int, h1, h2, h3, h1']
      · constructor
        · simp [write_var_int, read_var_int, h1, h2, h3, u64le, readU64le]
          omega
        · simp [write_var_int, h1, h2, h3, h1']

/-- Witness for `var_int_round_trip` at the claim's sample points. -/
theorem var_int_round_trip_witness :
    (0xfd : Nat) < 2 ^ 64 ∧
    read_var_int (write_var_int 0xfd) = some (0xfd, []) ∧
    (0x10000 : Nat) < 2 ^ 64 ∧
    read_var_int (write_var_int 0x10000) = some (0x10000, []) ∧
    (0xffffffffffffffff : Nat) < 2 ^ 64 ∧
    read_var_int (write_var_int 0xffffffffffffffff) =
      some (0xffffffffffffffff, []) :=
  ⟨by decide, (var_int_round_trip 0xfd (by decide)).1,
   by decide, (var_int_round_trip 0x10000 (by decide)).1,
   by decide, (var_int_round_trip 0xffffffffffffffff (by norm_num)).1⟩

set_option maxRecDepth 10000 in
/-- Witness for `cash_addr_round_trip`: the zero hash as a P2PKH address under
the default prefix round-trips. -/
theorem cash_addr_round_trip_witness :
    from_cash_addr (to_cash_addr DEFAULT_PREFIX AddressType.P2PKH
        (List.replicate 20 0)) =
      FromCashAddrResult.ok (List.replicate 20 0) AddressType.P2PKH
        DEFAULT_PREFIX ∧
    ∃ digits : List Nat, (∀ d ∈ digits, d < 32) ∧
      to_cash_addr DEFAULT_PREFIX AddressType.P2PKH (List.replicate 20 0) =
        DEFAULT_PREFIX ++ [58] ++ b32_encode digits :=
  cash_addr_round_trip AddressType.P2PKH (List.replicate 20 0) (by decide)
    (by decide) DEFAULT_PREFIX (Or.inl rfl)

/-- C8: for every address produced by `to_cash_addr` (any supported prefix,
address type and 20-byte hash), replacing any one character of its base32
part by a different alphabet character makes `from_cash_addr` fail with
`AddressError::InvalidChecksum`. -/
theorem checksum_flip_rejected (addr_type : AddressType) (hash : List Nat)
    (hlen : hash.length = 20) (hbytes : ∀ b ∈ hash, b < 256) (pfx : List Nat)
    (hpfx : pfx = DEFAULT_PREFIX ∨
      pfx = [115, 105, 109, 112, 108, 101, 108, 101, 100, 103, 101, 114])
    (chars : List Nat)
    (henc : to_cash_addr pfx addr_type hash = pfx ++ [58] ++ chars)
    (j : Nat) (hj : j < chars.length) (c : Nat) (hc : c ∈ CHARSET)
    (hne : c ≠ chars.getD j 0) :
    from_cash_addr (pfx ++ [58] ++ chars.set j c) =
      FromCashAddrResult.err AddressError.InvalidChecksum := by
  have hplow : pfx.map to_ascii_lowercase = pfx := by
    rcases hpfx with h | h <;> subst h <;> decide
  have hpcol : ∀ b ∈ pfx, b ≠ 58 := by
    rcases hpfx with h | h <;> subst h <;> decide
  obtain ⟨digits, hdig32, hver, htoc⟩ :=
    to_cash_addr_form addr_type hash hlen hbytes pfx
  have hchars : chars = b32_encode digits :=
    (List.append_cancel_left (htoc.symm.trans henc)).symm
  have hjd : j < digits.length := by
    rw [hchars] at hj
    simpa [b32_encode] using hj
  obtain ⟨d', hd'32, hcd⟩ := charset_surj c hc
  have hgetD : chars.getD j 0 = CHARSET.getD (digits.getD j 0) 0 := by
    rw [hchars]
    show (digits.map (fun x => CHARSET.getD x 0)).getD j 0 = _
    rw [List.getD_eq_getElem _ 0 (by simpa using hjd), List.getElem_map,
      List.getD_eq_getElem digits 0 hjd]
  have hne' : d' ≠ digits.getD j 0 := by
    intro h
    apply hne
    rw [hgetD, ← h, hcd]
  have hset : chars.set j c = b32_encode (digits.set j d') := by
    rw [hchars, ← hcd]
    show (digits.map (fun x => CHARSET.getD x 0)).set j
        ((fun x => CHARSET.getD x 0) d') =
      (digits.set j d').map (fun x => CHARSET.getD x 0)
    rw [List.map_set]
  have hset32 : ∀ d ∈ digits.set j d', d < 32 := by
    intro d hd
    rcases List.mem_or_eq_of_mem_set hd with h | h
    · exact hdig32 d h
    · subst h; exact hd'32
  have hverf : verify_checksum pfx (digits.set j d') = false :=
    verify_checksum_flip pfx digits j d' hjd hdig32 hd'32 hne' hver
  rw [hset]
  exact from_cash_addr_encoded_badsum pfx (digits.set j d') hplow hpcol
    hset32 hverf

set_option maxRecDepth 10000 in
/-- Witness for `checksum_flip_rejected`: flipping the first character of the
zero-hash address from `q` to `p` is rejected as an invalid checksum. -/
theorem checksum_flip_rejected_witness :
    from_cash_addr (DEFAULT_PREFIX ++ [58] ++
        (List.replicate 34 113 ++
          [102, 110, 104, 107, 115, 54, 48, 51]).set 0 112) =
      FromCashAddrResult.err AddressError.InvalidChecksum :=
  checksum_flip_rejected AddressType.P2PKH (List.replicate 20 0) (by decide)
    (by decide) DEFAULT_PREFIX (Or.inl rfl)
    (List.replicate 34 113 ++ [102, 110, 104, 107, 115, 54, 48, 51])
    (by decide) 0 (by decide) 112 (by decide) (by decide)

set_option maxRecDepth 10000 in
/-- C10: `from_cash_addr` returns a value only when the decoded base32
payload converts back to exactly 27 bytes; there is a concrete input whose
base32 digits all decode and whose checksum verifies, but whose 8-digit
payload converts to 5 bytes, so `from_cash_addr` panics instead of returning
an `AddressError`. -/
theorem from_cash_addr_totality :
    (∀ s h t p', from_cash_addr s = FromCashAddrResult.ok h t p' →
      ∃ ds conv : List Nat,
        b32_decode (split_addr (s.map to_ascii_lowercase)).2 = Except.ok ds ∧
        convert_bits ds 5 8 true = some conv ∧ conv.length = 27) ∧
    (∃ s : List Nat,
      b32_decode (split_addr (s.map to_ascii_lowercase)).2 =
        Except.ok [29, 20, 29, 7, 4, 3, 23, 2] ∧
      verify_checksum (split_addr (s.map to_ascii_lowercase)).1
        [29, 20, 29, 7, 4, 3, 23, 2] = true ∧
      convert_bits [29, 20, 29, 7, 4, 3, 23, 2] 5 8 true =
        some [237, 58, 114, 14, 226] ∧
      ([237, 58, 114, 14, 226] : List Nat).length ≠ 27 ∧
      from_cash_addr s = FromCashAddrResult.panic) := by
  constructor
  · intro s h t p' hok
    simp only [from_cash_addr] at hok
    split at hok
    next e hdec => exact absurd hok (by simp)
    next decoded hdec =>
      split at hok
      · exact absurd hok (by simp)
      · split at hok
        next hcv => exact absurd hok (by simp)
        next conv hcv =>
          split at hok
          next hl => exact ⟨decoded, conv, hdec, hcv, hl⟩
          next hl => exact absurd hok (by simp)
  · exact ⟨DEFAULT_PREFIX ++ [58] ++ [97, 53, 97, 56, 121, 114, 104, 122],
      by rfl, by decide, by decide, by decide, by decide⟩

set_option maxRecDepth 10000 in
/-- Witness for the universal clause of `from_cash_addr_totality` at the
zero-hash address, which `from_cash_addr` accepts. -/
theorem from_cash_addr_totality_witness :
    ∃ ds conv : List Nat,
      b32_decode (split_addr ((DEFAULT_PREFIX ++ [58] ++
        (List.replicate 34 113 ++
          [102, 110, 104, 107, 115, 54, 48, 51])).map
            to_ascii_lowercase)).2 = Except.ok ds ∧
      convert_bits ds 5 8 true = some conv ∧ conv.length = 27 :=
  from_cash_addr_totality.1
    (DEFAULT_PREFIX ++ [58] ++
      (List.replicate 34 113 ++ [102, 110, 104, 107, 115, 54, 48, 51]))
    (List.replicate 20 0) AddressType.P2PKH DEFAULT_PREFIX (by decide)

end Slpagora
